import Mathlib

/-!
Verification development for `src/figma-node-report.mjs` (figmaFeeder).

The crawler core is embedded shallowly:

* JSON-like documents are modelled by `JVal`, with a `jUndef` constructor for
  the JavaScript `undefined` value, so that property access is total
  (`getField` returns `jUndef` for a missing property, exactly as `obj.k`
  does in JavaScript).  Structural equality on `JVal` coincides with the
  JavaScript SameValueZero comparison used by `Map`/`Set` on the primitive
  values that serve as node identifiers (the data model fixes `NodeId` to be
  a string).
* `normalizeNode`, `pick`, `omitFields` (source name `omit`, a Lean keyword),
  `isVisibleNode` and `shouldRetry` are direct translations of the source
  functions.  The `tw` presentation-hint field of the source's normalized
  node (`inferTw`) is not carried: no claim refers to it and it is pure
  floating-point string formatting.
* `figmaFetchJson` is modelled by a bounded retry loop over an abstract
  response sequence (one outcome per HTTP attempt) and an abstract jitter
  sequence standing for `Math.floor(Math.random() * 250)`.
* `crawlSubtree` is modelled as a round-based state machine.  Within one
  dispatch round the per-batch result processing blocks of the source run
  atomically (the loop body after `await fetchNodes` contains no `await`),
  in an order decided by network timing; this nondeterminism is captured by
  a schedule parameter that may reorder the batches of a round, constrained
  to be a permutation.  The fetcher is an arbitrary function of the request
  number, the batch and the identifier, covering every possible remote
  behaviour of `(data?.nodes || {})[id]`.  Rounds are cut off by fuel: the
  source loop need not terminate for adversarial fetchers, and every claim
  below is a property of the state reached after any number of rounds.
* `mapLimit` is modelled twice: its effect on the crawl is part of the round
  semantics above, and its failure/settlement behaviour is modelled by a
  deterministic list-scheduling semantics (`mapLimitRun`) in which each work
  item carries a duration (time until its promise settles) and a success
  flag; workers claim items in index order, a worker dies when its item
  rejects, and `Promise.all` settles at the first worker death.
-/

namespace FigmaReport

/-- JavaScript values as they occur in Figma API documents.  `jUndef` is the
`undefined` value, so property access can be total. -/
inductive JVal : Type where
  | jUndef : JVal
  | jNull : JVal
  | jBool : Bool → JVal
  | jNum : Int → JVal
  | jStr : String → JVal
  | jArr : List JVal → JVal
  | jObj : List (String × JVal) → JVal

open JVal

mutual

/-- Boolean structural equality on `JVal`, written by structural recursion so
that it reduces inside the kernel (the deriving handler does not support
nested inductives). -/
def beqJ : JVal → JVal → Bool
  | jUndef, jUndef => true
  | jNull, jNull => true
  | jBool x, jBool y => x == y
  | jNum x, jNum y => x == y
  | jStr x, jStr y => x == y
  | jArr xs, jArr ys => beqArr xs ys
  | jObj xs, jObj ys => beqFields xs ys
  | _, _ => false
termination_by structural a => a

/-- Boolean equality on `JVal` arrays. -/
def beqArr : List JVal → List JVal → Bool
  | [], [] => true
  | x :: xs, y :: ys => beqJ x y && beqArr xs ys
  | _, _ => false
termination_by structural a => a

/-- Boolean equality on ordered field lists. -/
def beqFields : List (String × JVal) → List (String × JVal) → Bool
  | [], [] => true
  | (k, x) :: xs, (l, y) :: ys => k == l && beqJ x y && beqFields xs ys
  | _, _ => false
termination_by structural a => a

end

mutual

theorem beqJ_iff : (a b : JVal) → (beqJ a b = true ↔ a = b)
  | jUndef, b => by cases b <;> simp [beqJ]
  | jNull, b => by cases b <;> simp [beqJ]
  | jBool x, b => by cases b <;> simp [beqJ]
  | jNum x, b => by cases b <;> simp [beqJ]
  | jStr x, b => by cases b <;> simp [beqJ]
  | jArr xs, jUndef => by simp [beqJ]
  | jArr xs, jNull => by simp [beqJ]
  | jArr xs, jBool _ => by simp [beqJ]
  | jArr xs, jNum _ => by simp [beqJ]
  | jArr xs, jStr _ => by simp [beqJ]
  | jArr xs, jArr ys => by simp [beqJ, beqArr_iff xs ys]
  | jArr xs, jObj _ => by simp [beqJ]
  | jObj xs, jUndef => by simp [beqJ]
  | jObj xs, jNull => by simp [beqJ]
  | jObj xs, jBool _ => by simp [beqJ]
  | jObj xs, jNum _ => by simp [beqJ]
  | jObj xs, jStr _ => by simp [beqJ]
  | jObj xs, jArr _ => by simp [beqJ]
  | jObj xs, jObj ys => by simp [beqJ, beqFields_iff xs ys]
termination_by structural a => a

theorem beqArr_iff : (a b : List JVal) → (beqArr a b = true ↔ a = b)
  | [], [] => by simp [beqArr]
  | [], _ :: _ => by simp [beqArr]
  | _ :: _, [] => by simp [beqArr]
  | x :: xs, y :: ys => by simp [beqArr, beqJ_iff x y, beqArr_iff xs ys]
termination_by structural a => a

theorem beqFields_iff : (a b : List (String × JVal)) → (beqFields a b = true ↔ a = b)
  | [], [] => by simp [beqFields]
  | [], _ :: _ => by simp [beqFields]
  | _ :: _, [] => by simp [beqFields]
  | (k, x) :: xs, (l, y) :: ys => by
    simp [beqFields, beqJ_iff x y, beqFields_iff xs ys, Prod.ext_iff, and_assoc]
termination_by structural a => a

end

instance : DecidableEq JVal := fun a b => decidable_of_iff (beqJ a b = true) (beqJ_iff a b)

/-- Truthiness of a JavaScript value (`if (v)`, `filter(Boolean)`). -/
def truthy : JVal → Bool
  | jUndef => false
  | jNull => false
  | jBool b => b
  | jNum n => n != 0
  | jStr s => s != ""
  | jArr _ => true
  | jObj _ => true

/-- Lookup of a key in an ordered field list (first occurrence). -/
def lookupL : List (String × JVal) → String → Option JVal
  | [], _ => none
  | (k, v) :: rest, key => if k = key then some v else lookupL rest key

/-- Value of a property on a field list, `jUndef` when absent. -/
def getL (fs : List (String × JVal)) (k : String) : JVal :=
  (lookupL fs k).getD jUndef

/-- Presence test for a key (`k in obj`). -/
def keyIn (fs : List (String × JVal)) (k : String) : Bool :=
  (lookupL fs k).isSome

/-- Property access `v.k` (or `v?.k`): `jUndef` on non-objects, mirroring
JavaScript on every value except `null`/`undefined`, where JavaScript throws
unless optional chaining is used.  Theorems whose truth depends on `.id`
access on children carry an explicit objects-only hypothesis. -/
def getField : JVal → String → JVal
  | jObj fs, k => getL fs k
  | _, _ => jUndef

/-- Own enumerable properties, as collected by the spread `{...doc}`.  For
the primitive values this is empty (strings would contribute index
properties in JavaScript; no claim depends on spreading a string). -/
def fieldsOf : JVal → List (String × JVal)
  | jObj fs => fs
  | _ => []

/-- Source `isVisibleNode`: `node?.visible !== false`; visibility defaults to
true when the flag is omitted. -/
def isVisibleNode (node : JVal) : Bool :=
  getField node "visible" != jBool false

/-- Source `pick(obj, keys)`: the keys of `keys` that are present in `obj`,
in `keys` order, with their values. -/
def pick (fs : List (String × JVal)) : List String → List (String × JVal)
  | [] => []
  | k :: ks => if keyIn fs k then (k, getL fs k) :: pick fs ks else pick fs ks

/-- Source `omit(obj, keysToOmit)`: the entries of `obj`, in order, whose key
is not in the omission set. -/
def omitFields (fs : List (String × JVal)) (ban : List String) : List (String × JVal) :=
  fs.filter (fun p => !ban.contains p.1)

/-- Geometry fields deleted unconditionally by `normalizeNode`. -/
def geomKeys : List String := ["vectorPaths", "vectorNetwork", "vectorData"]

/-- Source `knownKeys` allow-list of `normalizeNode`. -/
def knownKeys : List String :=
  ["id", "name", "type", "visible", "locked", "opacity", "blendMode", "isMask",
   "maskType", "clipsContent", "layoutMode", "layoutWrap",
   "primaryAxisSizingMode", "counterAxisSizingMode", "primaryAxisAlignItems",
   "counterAxisAlignItems", "primaryAxisAlignContent",
   "counterAxisAlignContent", "itemSpacing", "paddingTop", "paddingRight",
   "paddingBottom", "paddingLeft", "layoutPositioning", "constraints",
   "absoluteBoundingBox", "absoluteRenderBounds", "size", "relativeTransform",
   "rotation", "cornerRadius", "rectangleCornerRadii", "fills", "strokes",
   "strokeWeight", "strokeAlign", "strokeCap", "strokeJoin", "strokeDashes",
   "effects", "styles", "characters", "style", "characterStyleOverrides",
   "styleOverrideTable", "componentId", "componentProperties",
   "variantProperties", "documentationLinks", "reactions", "transitionNodeID",
   "prototypeStartNodeID", "exportSettings"]

/-- Normalized node, as returned by the source `normalizeNode` (without the
`tw` presentation-hint list, which no claim mentions). -/
structure NormNode : Type where
  id : JVal
  name : JVal
  type : JVal
  childIds : List JVal
  known : List (String × JVal)
  other : List (String × JVal)
deriving DecidableEq

/-- Source `normalizeNode(doc)`: spread-copy minus geometry fields, visible
children's truthy ids, allow-listed `known`, remaining `other`. -/
def normalizeNode (doc : JVal) : NormNode :=
  let raw := (fieldsOf doc).filter (fun p => !geomKeys.contains p.1)
  let childIds :=
    match getField doc "children" with
    | jArr cs => ((cs.filter isVisibleNode).map (fun c => getField c "id")).filter truthy
    | _ => []
  { id := getField doc "id"
    name := getField doc "name"
    type := getField doc "type"
    childIds := childIds
    known := pick raw knownKeys
    other := omitFields raw (knownKeys ++ ["children"]) }

/-! Remote fetcher with retry (`shouldRetry`, `figmaFetchJson`). -/

/-- Source `shouldRetry(status)`. -/
def shouldRetry (status : Nat) : Bool :=
  if status = 429 then true
  else if 500 ≤ status ∧ status ≤ 599 then true
  else false

/-- Outcome of one HTTP attempt: `res.ok` with a parsed body, or a status
code (the status text and body only decorate the thrown message). -/
inductive FetchOutcome : Type where
  | ok : JVal → FetchOutcome
  | err : Nat → FetchOutcome
deriving DecidableEq

/-- Result of `figmaFetchJson`: the parsed body, or the status carried by
the thrown `Figma API error`. -/
inductive FetchResult : Type where
  | success : JVal → FetchResult
  | failure : Nat → FetchResult
deriving DecidableEq

/-- Observable trace of one `figmaFetchJson` call: its result, the backoff
waits actually slept (in order), and the number of HTTP attempts made. -/
structure FetchTrace : Type where
  result : FetchResult
  waits : List Nat
  attempts : Nat
deriving DecidableEq

/-- Source constant `maxAttempts` of `figmaFetchJson`. -/
def maxAttempts : Nat := 6

/-- Retry loop of `figmaFetchJson`.  `responses k` is the outcome of the
`k`-th HTTP attempt (the source's `attempt` counter equals the number of
prior attempts); `jitter k` stands for the `k`-th draw of
`Math.floor(Math.random() * 250)`.  The source guard
`attempt < maxAttempts - 1` is carried as the structurally decreasing count
`remaining = (maxAttempts - 1) - attempt` of retries still allowed, so the
loop is structural recursion and computes inside the kernel. -/
def figmaFetchGo (responses : Nat → FetchOutcome) (jitter : Nat → Nat) :
    Nat → Nat → List Nat → FetchTrace
  | remaining, attempt, waits =>
    match responses attempt with
    | FetchOutcome.ok v => ⟨FetchResult.success v, waits, attempt + 1⟩
    | FetchOutcome.err s =>
      match remaining with
      | 0 => ⟨FetchResult.failure s, waits, attempt + 1⟩
      | Nat.succ r =>
        if shouldRetry s = true then
          figmaFetchGo responses jitter r (attempt + 1)
            (waits ++ [500 * 2 ^ attempt + jitter attempt])
        else ⟨FetchResult.failure s, waits, attempt + 1⟩

/-- Source `figmaFetchJson`, starting at attempt 0 with no waits slept and
`maxAttempts - 1` retries allowed. -/
def figmaFetchJson (responses : Nat → FetchOutcome) (jitter : Nat → Nat) : FetchTrace :=
  figmaFetchGo responses jitter (maxAttempts - 1) 0 []

/-! Frontier crawler (`crawlSubtree`). -/

/-- Mutable state of one `crawlSubtree` invocation, plus the observable log
of dispatched batches (the `ids` arguments of the `fetchNodes` calls). -/
structure CrawlState : Type where
  nodeMap : List (JVal × NormNode)
  toExpand : List JVal
  queued : List JVal
  calls : List (List JVal)
deriving DecidableEq

/-- Membership of a key in the result map (`nodeMap.has(id)`). -/
def mapHasKey (m : List (JVal × NormNode)) (k : JVal) : Bool :=
  m.any (fun p => p.1 = k)

/-- Insertion into the result map (`nodeMap.set(id, v)`): replaces in place
when the key is present, appends otherwise. -/
def mapSet (m : List (JVal × NormNode)) (k : JVal) (v : NormNode) :
    List (JVal × NormNode) :=
  if mapHasKey m k then m.map (fun p => if p.1 = k then (k, v) else p)
  else m ++ [(k, v)]

/-- Source `enqueue(id)` closure of `crawlSubtree`: skip falsy ids, ids
already stored, and ids already seen; otherwise mark seen and append to the
pending queue. -/
def enqueue (st : CrawlState) (id : JVal) : CrawlState :=
  if truthy id = false then st
  else if mapHasKey st.nodeMap id then st
  else if id ∈ st.queued then st
  else { st with queued := st.queued ++ [id], toExpand := st.toExpand ++ [id] }

/-- Abstract remote behaviour: given the number of previously issued
requests, the dispatched batch, and one of its ids, the value of
`(data?.nodes || {})[id]` in the response.  A total function covers every
fetcher behaviour of a crawl in which no fetch throws. -/
def Fetcher : Type := Nat → List JVal → JVal → JVal

/-- Processing of one id of a dispatched batch (loop body over `ids` in
`crawlSubtree`): skip a missing entry or document, skip an invisible
document, otherwise normalize, store, and enqueue the children. -/
def handleId (fetcher : Fetcher) (n : Nat) (ids : List JVal)
    (s : CrawlState) (id : JVal) : CrawlState :=
  let entry := fetcher n ids id
  if truthy entry = false then s
  else
    let doc := getField entry "document"
    if truthy doc = false then s
    else if isVisibleNode doc = false then s
    else
      let norm := normalizeNode doc
      let s1 := { s with nodeMap := mapSet s.nodeMap norm.id norm }
      norm.childIds.foldl enqueue s1

/-- Dispatch of one batch: log the request, then process each id.  The
processing block of the source runs without intervening `await`s, so it is
atomic with respect to the other batches of the round. -/
def processBatch (fetcher : Fetcher) (st : CrawlState) (ids : List JVal) : CrawlState :=
  let n := st.calls.length
  (ids.foldl (handleId fetcher n ids) { st with calls := st.calls ++ [ids] })

/-- Batch pre-splitting loop of `crawlSubtree`: form up to `extra` further
batches of at most `batchSize` ids while the queue is non-empty.  When
`batchSize = 0` the source loops forever at this point; the `[]` result of
that branch is never exercised by the claims, which all assume
`batchSize ≥ 1`. -/
def chunksUpTo (batchSize : Nat) : Nat → List JVal → List (List JVal) × List JVal
  | 0, q => ([], q)
  | Nat.succ k, q =>
    if q.isEmpty then ([], q)
    else
      let b := q.take batchSize
      if b.isEmpty then ([], q)
      else
        let res := chunksUpTo batchSize k (q.drop batchSize)
        (b :: res.1, res.2)

/-- Batch formation of one dispatch round: a first batch of up to
`batchSize` ids, then up to `concurrency - 1` further batches. -/
def formBatches (batchSize concurrency : Nat) (q : List JVal) :
    List (List JVal) × List JVal :=
  let b1 := q.take batchSize
  let res := chunksUpTo batchSize (concurrency - 1) (q.drop batchSize)
  (b1 :: res.1, res.2)

/-- Reordering of the batches of one round.  The per-batch processing blocks
run atomically but complete in network order; a `Schedule` picks that order.
Theorems constrain it to a permutation via `SchedulePerm`. -/
def Schedule : Type := Nat → List (List JVal) → List (List JVal)

/-- Well-formedness of a schedule: it only reorders the formed batches. -/
def SchedulePerm (sched : Schedule) : Prop :=
  ∀ r bs, List.Perm (sched r bs) bs

/-- One dispatch round of `crawlSubtree`: drain the queue into batches and
process them (through `mapLimit`) in schedule order. -/
def crawlStep (fetcher : Fetcher) (sched : Schedule) (batchSize concurrency : Nat)
    (r : Nat) (st : CrawlState) : CrawlState :=
  let res := formBatches batchSize concurrency st.toExpand
  (sched r res.1).foldl (processBatch fetcher) { st with toExpand := res.2 }

/-- Outer `while (toExpand.length > 0)` loop of `crawlSubtree`, cut off
after `fuel` rounds (an adversarial fetcher can feed the crawl forever). -/
def crawlRounds (fetcher : Fetcher) (sched : Schedule) (batchSize concurrency : Nat) :
    Nat → CrawlState → CrawlState
  | 0, st => st
  | Nat.succ k, st =>
    if st.toExpand.isEmpty then st
    else crawlRounds fetcher sched batchSize concurrency k
      (crawlStep fetcher sched batchSize concurrency k st)

/-- Initial state of a crawl: empty map, empty log, root enqueued. -/
def initState (rootId : JVal) : CrawlState :=
  enqueue ⟨[], [], [], []⟩ rootId

/-- Source `crawlSubtree`: state reached from the root after at most `fuel`
dispatch rounds.  The crawl has completed exactly when `toExpand` is empty. -/
def crawlSubtree (fetcher : Fetcher) (sched : Schedule) (rootId : JVal)
    (batchSize concurrency fuel : Nat) : CrawlState :=
  crawlRounds fetcher sched batchSize concurrency fuel (initState rootId)

/-! Functional remote worlds, for the claims that need a notion of
reachability: the entry for an id does not depend on the request number or
on the batch the id is part of. -/

/-- Fetcher determined by a per-id world. -/
def worldFetcher (world : JVal → JVal) : Fetcher := fun _ _ id => world id

/-- Document returned by a world for an id, when present and truthy. -/
def worldEntryDoc (world : JVal → JVal) (id : JVal) : Option JVal :=
  let entry := world id
  if truthy entry = false then none
  else
    let doc := getField entry "document"
    if truthy doc = false then none else some doc

/-- Children the crawler would discover at an id: the normalized child ids
of a present, visible document, and nothing otherwise. -/
def worldChildren (world : JVal → JVal) (id : JVal) : List JVal :=
  match worldEntryDoc world id with
  | some d => if isVisibleNode d then (normalizeNode d).childIds else []
  | none => []

/-- Visible reachability from the crawl root: the root itself, and every id
discovered from a reachable id through a present, visible document, with
invisible child stubs pruned (`childIds` already excludes them). -/
inductive Reaches (world : JVal → JVal) (root : JVal) : JVal → Prop where
  | root : Reaches world root root
  | step {a b : JVal} : Reaches world root a → b ∈ worldChildren world a →
      Reaches world root b

/-- Condition under which a dispatched id ends up stored: its world document
is present, visible, and carries the requested id as its own `id` field. -/
def goodDoc (world : JVal → JVal) (id : JVal) : Bool :=
  match worldEntryDoc world id with
  | some d => isVisibleNode d && decide (getField d "id" = id)
  | none => false

/-! Worker pool (`mapLimit`): settlement-time semantics.

One unit of work is abstracted by the time until its promise settles
(`dur`) and whether it fulfills (`ok`).  The source's workers claim items
in index order (`const current = idx++`); a worker becomes available again
when its current item fulfills, and stops claiming (its promise rejects)
when its current item rejects.  `Promise.all(workers)` therefore rejects at
the earliest worker rejection, and fulfills once every worker's loop has
exited.  Items are claimed by the earliest-available live worker (ties by
worker index). -/

/-- One unit of work handed to `mapLimit`. -/
structure WorkItem : Type where
  dur : Nat
  ok : Bool
deriving DecidableEq

/-- Execution record of one claimed item. -/
structure ItemRun : Type where
  start : Nat
  finish : Nat
  ok : Bool
deriving DecidableEq

/-- Index and value of the first minimum of a list. -/
def minIdx : List Nat → Option (Nat × Nat)
  | [] => none
  | t :: ts =>
    match minIdx ts with
    | none => some (0, t)
    | some (i, m) => if t ≤ m then some (0, t) else some (i + 1, m)

/-- List-scheduling semantics of the worker loop of `mapLimit`: `avail` is
the time at which each live worker can claim its next item.  Returns per
item its run (none when every worker has died before it is claimed) and the
list of worker death times in claim order. -/
def mapLimitRunAux : List Nat → List WorkItem → List (Option ItemRun) × List Nat
  | _, [] => ([], [])
  | avail, it :: rest =>
    match minIdx avail with
    | none => ((it :: rest).map (fun _ => none), [])
    | some (i, t) =>
      let fin := t + it.dur
      if it.ok then
        let r := mapLimitRunAux (avail.set i fin) rest
        (some ⟨t, fin, true⟩ :: r.1, r.2)
      else
        let r := mapLimitRunAux (avail.eraseIdx i) rest
        (some ⟨t, fin, false⟩ :: r.1, fin :: r.2)

/-- Runs and worker deaths of `mapLimit(items, limit, fn)`: the source
starts `Math.min(limit, items.length)` workers, all available at time 0. -/
def mapLimitRun (limit : Nat) (items : List WorkItem) :
    List (Option ItemRun) × List Nat :=
  mapLimitRunAux (List.replicate (min limit items.length) 0) items

/-- Settlement time of the `mapLimit` call itself: `Promise.all` rejects at
the earliest worker death, and otherwise fulfills once the last item is
done. -/
def mapLimitSettle (limit : Nat) (items : List WorkItem) : Nat :=
  let r := mapLimitRun limit items
  match r.2.min? with
  | some d => d
  | none => (r.1.filterMap (fun o => Option.map ItemRun.finish o)).foldr max 0

/-- Failure of the `mapLimit` call: some worker died, so `Promise.all`
rejected with that worker's error. -/
def mapLimitFails (limit : Nat) (items : List WorkItem) : Bool :=
  !(mapLimitRun limit items).2.isEmpty

/-! Basic lemmas about field lists. -/

/-- Key list of an ordered field list. -/
def fieldKeys (fs : List (String × JVal)) : List String :=
  fs.map Prod.fst

theorem keyIn_iff (fs : List (String × JVal)) (k : String) :
    keyIn fs k = true ↔ k ∈ fieldKeys fs := by
  induction fs with
  | nil => simp [keyIn, lookupL, fieldKeys]
  | cons p rest ih =>
    obtain ⟨k', v⟩ := p
    by_cases h : k' = k
    · simp [keyIn, lookupL, fieldKeys, h]
    · simpa [keyIn, lookupL, fieldKeys, h, Ne.symm h] using ih

theorem mem_fieldKeys_omit (fs : List (String × JVal)) (ban : List String) (k : String) :
    k ∈ fieldKeys (omitFields fs ban) ↔ k ∈ fieldKeys fs ∧ k ∉ ban := by
  induction fs with
  | nil => simp [omitFields, fieldKeys]
  | cons q rest ih =>
    obtain ⟨k', v⟩ := q
    by_cases h : ban.contains k' = true
    · have hq : k' ∈ ban := by simpa using h
      have hcons : omitFields ((k', v) :: rest) ban = omitFields rest ban := by
        simp [omitFields, List.filter_cons, hq]
      rw [hcons, ih]
      show _ ↔ k ∈ k' :: fieldKeys rest ∧ k ∉ ban
      rw [List.mem_cons]
      constructor
      · rintro ⟨h1, h2⟩
        exact ⟨Or.inr h1, h2⟩
      · rintro ⟨h1 | h1, h2⟩
        · subst h1
          exact absurd hq h2
        · exact ⟨h1, h2⟩
    · have hq : k' ∉ ban := by simpa using h
      have hcons : omitFields ((k', v) :: rest) ban = (k', v) :: omitFields rest ban := by
        simp [omitFields, List.filter_cons, hq]
      rw [hcons]
      show k ∈ k' :: fieldKeys (omitFields rest ban) ↔ k ∈ k' :: fieldKeys rest ∧ k ∉ ban
      rw [List.mem_cons, List.mem_cons, ih]
      constructor
      · rintro (h1 | ⟨h1, h2⟩)
        · subst h1
          exact ⟨Or.inl rfl, hq⟩
        · exact ⟨Or.inr h1, h2⟩
      · rintro ⟨h1 | h1, h2⟩
        · exact Or.inl h1
        · exact Or.inr ⟨h1, h2⟩

theorem mem_fieldKeys_dropGeom (fs : List (String × JVal)) (k : String) :
    k ∈ fieldKeys (fs.filter (fun p => !geomKeys.contains p.1)) ↔
      k ∈ fieldKeys fs ∧ k ∉ geomKeys :=
  mem_fieldKeys_omit fs geomKeys k

theorem mem_fieldKeys_pick (fs : List (String × JVal)) (ks : List String) (k : String) :
    k ∈ fieldKeys (pick fs ks) ↔ k ∈ ks ∧ k ∈ fieldKeys fs := by
  induction ks with
  | nil => simp [pick, fieldKeys]
  | cons k' rest ih =>
    by_cases h : keyIn fs k' = true
    · have hcons : pick fs (k' :: rest) = (k', getL fs k') :: pick fs rest := by
        simp [pick, h]
      rw [hcons]
      show k ∈ k' :: fieldKeys (pick fs rest) ↔ _
      rw [List.mem_cons, ih, List.mem_cons]
      constructor
      · rintro (h1 | ⟨h1, h2⟩)
        · subst h1
          exact ⟨Or.inl rfl, (keyIn_iff fs k).mp h⟩
        · exact ⟨Or.inr h1, h2⟩
      · rintro ⟨h1 | h1, h2⟩
        · exact Or.inl h1
        · exact Or.inr ⟨h1, h2⟩
    · have hcons : pick fs (k' :: rest) = pick fs rest := by
        simp [pick, h]
      rw [hcons, ih, List.mem_cons]
      constructor
      · rintro ⟨h1, h2⟩
        exact ⟨Or.inr h1, h2⟩
      · rintro ⟨h1 | h1, h2⟩
        · subst h1
          exact absurd ((keyIn_iff fs k).mpr h2) h
        · exact ⟨h1, h2⟩

theorem mem_fieldKeys_known (fs : List (String × JVal)) (k : String) :
    k ∈ fieldKeys (normalizeNode (jObj fs)).known ↔
      k ∈ knownKeys ∧ k ∈ fieldKeys fs ∧ k ∉ geomKeys := by
  show k ∈ fieldKeys (pick ((fieldsOf (jObj fs)).filter
      (fun p => !geomKeys.contains p.1)) knownKeys) ↔ _
  rw [mem_fieldKeys_pick, mem_fieldKeys_dropGeom]
  rfl

theorem mem_fieldKeys_other (fs : List (String × JVal)) (k : String) :
    k ∈ fieldKeys (normalizeNode (jObj fs)).other ↔
      (k ∈ fieldKeys fs ∧ k ∉ geomKeys) ∧ k ∉ knownKeys ∧ k ≠ "children" := by
  show k ∈ fieldKeys (omitFields ((fieldsOf (jObj fs)).filter
      (fun p => !geomKeys.contains p.1)) (knownKeys ++ ["children"])) ↔ _
  rw [mem_fieldKeys_omit, mem_fieldKeys_dropGeom]
  show (k ∈ fieldKeys fs ∧ k ∉ geomKeys) ∧ k ∉ knownKeys ++ ["children"] ↔ _
  simp only [List.mem_append, List.mem_singleton, not_or]

/-- Claim C8: for every RawNode, `known` and `other` are disjoint, their
union together with the `children` key (when the node carries one) is the
attribute set minus the three unconditionally dropped geometry fields, and
neither mapping ever contains a geometry key. -/
theorem normalizeNode_partition (fs : List (String × JVal)) :
    (∀ k, k ∈ fieldKeys (normalizeNode (jObj fs)).known →
        k ∉ fieldKeys (normalizeNode (jObj fs)).other)
    ∧ (∀ k, (k ∈ fieldKeys (normalizeNode (jObj fs)).known
        ∨ k ∈ fieldKeys (normalizeNode (jObj fs)).other
        ∨ (k = "children" ∧ k ∈ fieldKeys fs)) ↔
          (k ∈ fieldKeys fs ∧ k ∉ geomKeys))
    ∧ (∀ k ∈ geomKeys, k ∉ fieldKeys (normalizeNode (jObj fs)).known
        ∧ k ∉ fieldKeys (normalizeNode (jObj fs)).other) := by
  have hck : ("children" : String) ∉ knownKeys := by decide
  have hcg : ("children" : String) ∉ geomKeys := by decide
  have hgk : ∀ k ∈ geomKeys, k ∉ knownKeys := by decide
  refine ⟨?_, ?_, ?_⟩
  · intro k h1 h2
    rw [mem_fieldKeys_known] at h1
    rw [mem_fieldKeys_other] at h2
    exact h2.2.1 h1.1
  · intro k
    rw [mem_fieldKeys_known, mem_fieldKeys_other]
    constructor
    · rintro (h | h | h)
      · exact h.2
      · exact h.1
      · exact ⟨h.2, h.1 ▸ hcg⟩
    · rintro ⟨hmem, hg⟩
      by_cases hk : k ∈ knownKeys
      · exact Or.inl ⟨hk, hmem, hg⟩
      · by_cases hc : k = "children"
        · exact Or.inr (Or.inr ⟨hc, hmem⟩)
        · exact Or.inr (Or.inl ⟨⟨hmem, hg⟩, hk, hc⟩)
  · intro k hk
    constructor
    · rw [mem_fieldKeys_known]
      rintro ⟨h1, _, h3⟩
      exact h3 hk
    · rw [mem_fieldKeys_other]
      rintro ⟨⟨_, h2⟩, _⟩
      exact h2 hk

/-- Concrete instantiation of `normalizeNode_partition`: a raw vector path
payload appears in neither `known` nor `other`. -/
theorem normalizeNode_partition_witness :
    "vectorPaths" ∉ fieldKeys (normalizeNode (jObj [("id", jStr "x"),
      ("vectorPaths", jStr "PAYLOAD"), ("foo", jNum 3)])).known
    ∧ "vectorPaths" ∉ fieldKeys (normalizeNode (jObj [("id", jStr "x"),
      ("vectorPaths", jStr "PAYLOAD"), ("foo", jNum 3)])).other :=
  (normalizeNode_partition [("id", jStr "x"), ("vectorPaths", jStr "PAYLOAD"),
    ("foo", jNum 3)]).2.2 "vectorPaths" (by decide)

/-! Claim C9: childIds of the normalizer. -/

/-- RawNode with two visible children sharing the id `"X"`. -/
def dupChildrenDoc : JVal :=
  jObj [("children", jArr [jObj [("id", jStr "X")], jObj [("id", jStr "X")]])]

/-- Counterexample to claim C9: the source never deduplicates `childIds`,
so a parent whose `children` list repeats an id yields a duplicated
`childIds`. -/
theorem childIds_duplicates_counterexample :
    (normalizeNode dupChildrenDoc).childIds = [jStr "X", jStr "X"]
    ∧ ¬ (normalizeNode dupChildrenDoc).childIds.Nodup := by
  constructor
  · rfl
  · decide

/-- Claim C9 as amended: `childIds` is the order-preserving list of truthy
`id` values of exactly the children entries whose visibility flag is not
explicitly false, and it is duplicate-free whenever those entries' `id`
values are pairwise distinct (entries may not be `null`/`undefined`: on
those the source throws inside `.map((c) => c.id)`). -/
theorem normalizeNode_childIds (fs : List (String × JVal)) (cs : List JVal)
    (hcs : lookupL fs "children" = some (jArr cs))
    (_hobj : ∀ c ∈ cs, c ≠ jNull ∧ c ≠ jUndef) :
    (∀ v, v ∈ (normalizeNode (jObj fs)).childIds ↔
        ∃ c ∈ cs, isVisibleNode c = true ∧ getField c "id" = v ∧ truthy v = true)
    ∧ (normalizeNode (jObj fs)).childIds.Sublist (cs.map (fun c => getField c "id"))
    ∧ ((cs.map (fun c => getField c "id")).Nodup →
        (normalizeNode (jObj fs)).childIds.Nodup) := by
  have hget : getField (jObj fs) "children" = jArr cs := by
    simp [getField, getL, hcs]
  have hchild : (normalizeNode (jObj fs)).childIds =
      ((cs.filter isVisibleNode).map (fun c => getField c "id")).filter truthy := by
    simp [normalizeNode, hget]
  have hsub : (normalizeNode (jObj fs)).childIds.Sublist
      (cs.map (fun c => getField c "id")) := by
    rw [hchild]
    exact (List.filter_sublist _).trans ((List.filter_sublist cs).map _)
  refine ⟨?_, hsub, fun hnd => hnd.sublist hsub⟩
  intro v
  rw [hchild]
  simp only [List.mem_filter, List.mem_map]
  constructor
  · rintro ⟨⟨c, ⟨hc, hvis⟩, rfl⟩, ht⟩
    exact ⟨c, hc, hvis, rfl, ht⟩
  · rintro ⟨c, hc, hvis, rfl, ht⟩
    exact ⟨⟨c, ⟨hc, hvis⟩, rfl⟩, ht⟩

/-- Concrete instantiation of `normalizeNode_childIds`. -/
theorem normalizeNode_childIds_witness :
    (normalizeNode (jObj [("children", jArr
        [jObj [("id", jStr "X")],
         jObj [("id", jStr "Y"), ("visible", jBool false)]])])).childIds.Nodup :=
  (normalizeNode_childIds
      [("children", jArr [jObj [("id", jStr "X")],
        jObj [("id", jStr "Y"), ("visible", jBool false)]])]
      [jObj [("id", jStr "X")], jObj [("id", jStr "Y"), ("visible", jBool false)]]
      rfl (by decide)).2.2 (by decide)

/-! Claims C4 and C5: retry policy of the fetcher. -/

theorem shouldRetry_iff (s : Nat) :
    shouldRetry s = true ↔ (s = 429 ∨ (500 ≤ s ∧ s ≤ 599)) := by
  unfold shouldRetry
  split_ifs with h1 h2
  · simp [h1]
  · simp [h2]
  · simp [h1, h2]

theorem figmaFetchGo_allRetry (responses : Nat → FetchOutcome) (jitter : Nat → Nat) :
    ∀ (rem att : Nat) (acc : List Nat),
    (∀ k, att ≤ k → k ≤ att + rem →
        ∃ sk, responses k = FetchOutcome.err sk ∧ shouldRetry sk = true) →
    (figmaFetchGo responses jitter rem att acc).attempts = att + rem + 1
    ∧ (figmaFetchGo responses jitter rem att acc).waits.length = acc.length + rem
    ∧ ∃ sl, responses (att + rem) = FetchOutcome.err sl
        ∧ (figmaFetchGo responses jitter rem att acc).result = FetchResult.failure sl := by
  intro rem
  induction rem with
  | zero =>
    intro att acc h
    obtain ⟨s, hs, hr⟩ := h att (Nat.le_refl att) (Nat.le_add_right att 0)
    rw [figmaFetchGo, hs]
    exact ⟨rfl, rfl, s, hs, rfl⟩
  | succ rem ih =>
    intro att acc h
    obtain ⟨s, hs, hr⟩ := h att (Nat.le_refl att) (by omega)
    rw [figmaFetchGo, hs]
    simp only [hr, if_true]
    have h' : ∀ k, att + 1 ≤ k → k ≤ (att + 1) + rem →
        ∃ sk, responses k = FetchOutcome.err sk ∧ shouldRetry sk = true := by
      intro k hk1 hk2
      exact h k (by omega) (by omega)
    obtain ⟨ha, hw, sl, hsl, hres⟩ := ih (att + 1) (acc ++ [500 * 2 ^ att + jitter att]) h'
    refine ⟨by rw [ha]; omega, by rw [hw]; simp; omega, sl, ?_, hres⟩
    have : att + 1 + rem = att + (rem + 1) := by omega
    rw [← this]
    exact hsl

theorem figmaFetchGo_attempts_le (responses : Nat → FetchOutcome) (jitter : Nat → Nat) :
    ∀ (rem att : Nat) (acc : List Nat),
    (figmaFetchGo responses jitter rem att acc).attempts ≤ att + rem + 1 := by
  intro rem
  induction rem with
  | zero =>
    intro att acc
    rw [figmaFetchGo]
    cases responses att <;> simp
  | succ rem ih =>
    intro att acc
    rw [figmaFetchGo]
    cases responses att with
    | ok v => simp
    | err s =>
      by_cases hr : shouldRetry s = true
      · simp only [hr, if_true]
        have := ih (att + 1) (acc ++ [500 * 2 ^ att + jitter att])
        omega
      · simp [hr]

/-- Claim C4: the retryable statuses are exactly 429 and 500–599; a
non-retryable first response fails immediately with no retry attempt and no
backoff sleep; when every attempt draws a retryable failure the loop makes
exactly `maxAttempts = 6` HTTP attempts and 5 backoff sleeps, and raises
the error of the final attempt; and no call ever makes more than
`maxAttempts` attempts. -/
theorem figmaFetchJson_retryPolicy :
    (∀ s, shouldRetry s = true ↔ (s = 429 ∨ (500 ≤ s ∧ s ≤ 599)))
    ∧ (∀ responses jitter s, responses 0 = FetchOutcome.err s →
        shouldRetry s = false →
        figmaFetchJson responses jitter = ⟨FetchResult.failure s, [], 1⟩)
    ∧ (∀ responses jitter,
        (∀ k, k < maxAttempts →
            ∃ sk, responses k = FetchOutcome.err sk ∧ shouldRetry sk = true) →
        (figmaFetchJson responses jitter).attempts = maxAttempts
        ∧ (figmaFetchJson responses jitter).waits.length = maxAttempts - 1
        ∧ ∃ sl, responses (maxAttempts - 1) = FetchOutcome.err sl
            ∧ (figmaFetchJson responses jitter).result = FetchResult.failure sl)
    ∧ (∀ responses jitter, (figmaFetchJson responses jitter).attempts ≤ maxAttempts) := by
  refine ⟨shouldRetry_iff, ?_, ?_, ?_⟩
  · intro responses jitter s hs hr
    unfold figmaFetchJson
    rw [figmaFetchGo, hs]
    simp [maxAttempts, hr]
  · intro responses jitter h
    have hall : ∀ k, 0 ≤ k → k ≤ 0 + (maxAttempts - 1) →
        ∃ sk, responses k = FetchOutcome.err sk ∧ shouldRetry sk = true := by
      intro k _ hk2
      apply h
      simp [maxAttempts] at hk2 ⊢
      omega
    have := figmaFetchGo_allRetry responses jitter (maxAttempts - 1) 0 [] hall
    simpa [figmaFetchJson, maxAttempts] using this
  · intro responses jitter
    have := figmaFetchGo_attempts_le responses jitter (maxAttempts - 1) 0 []
    simpa [figmaFetchJson, maxAttempts] using this

/-- Concrete instantiation of `figmaFetchJson_retryPolicy`: a stub returning
404 fails immediately with zero retries and zero sleeps; a stub always
returning 500 exhausts all 6 attempts. -/
theorem figmaFetchJson_retryPolicy_witness :
    figmaFetchJson (fun _ => FetchOutcome.err 404) (fun _ => 0) =
      ⟨FetchResult.failure 404, [], 1⟩
    ∧ (figmaFetchJson (fun _ => FetchOutcome.err 500) (fun _ => 0)).attempts = maxAttempts := by
  constructor
  · exact figmaFetchJson_retryPolicy.2.1 (fun _ => FetchOutcome.err 404) (fun _ => 0) 404
      rfl (by decide)
  · exact (figmaFetchJson_retryPolicy.2.2.1 (fun _ => FetchOutcome.err 500) (fun _ => 0)
      (fun k _ => ⟨500, rfl, by decide⟩)).1

theorem figmaFetchGo_waits (responses : Nat → FetchOutcome) (jitter : Nat → Nat) :
    ∀ (rem att : Nat) (acc : List Nat), ∃ m,
      (figmaFetchGo responses jitter rem att acc).waits
        = acc ++ (List.range m).map (fun k => 500 * 2 ^ (att + k) + jitter (att + k)) := by
  intro rem
  induction rem with
  | zero =>
    intro att acc
    rw [figmaFetchGo]
    cases responses att with
    | ok v => exact ⟨0, by simp⟩
    | err s => exact ⟨0, by simp⟩
  | succ rem ih =>
    intro att acc
    rw [figmaFetchGo]
    cases responses att with
    | ok v => exact ⟨0, by simp⟩
    | err s =>
      by_cases hr : shouldRetry s = true
      · simp only [hr, if_true]
        obtain ⟨m, hm⟩ := ih (att + 1) (acc ++ [500 * 2 ^ att + jitter att])
        refine ⟨m + 1, ?_⟩
        rw [hm, List.append_assoc]
        congr 1
        rw [List.range_succ_eq_map, List.map_cons, List.map_map]
        simp only [Nat.add_zero, List.singleton_append]
        congr 1
        apply List.map_congr_left
        intro k _
        simp only [Function.comp_apply]
        have : att + 1 + k = att + (k + 1) := by omega
        rw [this]
      · simp only [hr, if_false]
        exact ⟨0, by simp⟩

/-- Spec-side description of the backoff schedule, for comparison with the
implementation: the `k`-th recorded wait is `500 * 2 ^ k` plus the `k`-th
jitter draw. -/
def specRetryWaits (jitter : Nat → Nat) (n : Nat) : List Nat :=
  (List.range n).map (fun k => 500 * 2 ^ k + jitter k)

/-- Claim C5: the `k`-th wait of any `figmaFetchJson` call equals
`500 * 2 ^ k + jitter k` (so the wait list refines `specRetryWaits`), each
wait is at least its exponential component `500 * 2 ^ k`, and — using that
every jitter draw is below 250 — the recorded waits are strictly
increasing. -/
theorem figmaFetchJson_backoff (responses : Nat → FetchOutcome) (jitter : Nat → Nat)
    (hj : ∀ k, jitter k < 250) :
    (∀ k (h : k < (figmaFetchJson responses jitter).waits.length),
        (figmaFetchJson responses jitter).waits.get ⟨k, h⟩ = 500 * 2 ^ k + jitter k)
    ∧ (figmaFetchJson responses jitter).waits
        = specRetryWaits jitter (figmaFetchJson responses jitter).waits.length
    ∧ (∀ k (h : k < (figmaFetchJson responses jitter).waits.length),
        500 * 2 ^ k ≤ (figmaFetchJson responses jitter).waits.get ⟨k, h⟩)
    ∧ (∀ k (h1 : k < (figmaFetchJson responses jitter).waits.length)
        (h2 : k + 1 < (figmaFetchJson responses jitter).waits.length),
        (figmaFetchJson responses jitter).waits.get ⟨k, h1⟩ <
          (figmaFetchJson responses jitter).waits.get ⟨k + 1, h2⟩) := by
  obtain ⟨m, hm⟩ := figmaFetchGo_waits responses jitter (maxAttempts - 1) 0 []
  have hm' : (figmaFetchJson responses jitter).waits
      = (List.range m).map (fun k => 500 * 2 ^ k + jitter k) := by
    unfold figmaFetchJson
    rw [hm]
    simp
  have hget : ∀ k (h : k < (figmaFetchJson responses jitter).waits.length),
      (figmaFetchJson responses jitter).waits.get ⟨k, h⟩ = 500 * 2 ^ k + jitter k := by
    intro k h
    rw [List.get_eq_getElem, List.getElem_of_eq hm' h]
    rw [List.getElem_map, List.getElem_range]
  refine ⟨hget, ?_, ?_, ?_⟩
  · rw [hm']
    simp [specRetryWaits]
  · intro k h
    rw [hget k h]
    exact Nat.le_add_right _ _
  · intro k h1 h2
    rw [hget k h1, hget (k + 1) h2]
    have hx : 1 ≤ 2 ^ k := Nat.one_le_two_pow
    have hp : (2 : Nat) ^ (k + 1) = 2 ^ k * 2 := pow_succ 2 k
    have hjk := hj k
    have hjk1 := hj (k + 1)
    rw [hp]
    set x := (2 : Nat) ^ k
    omega

/-- Concrete instantiation of `figmaFetchJson_backoff`: with constant jitter
7 and a stub always answering 429, the first wait is `500 * 2 ^ 0 + 7`. -/
theorem figmaFetchJson_backoff_witness :
    (figmaFetchJson (fun _ => FetchOutcome.err 429) (fun _ => 7)).waits
      = specRetryWaits (fun _ => 7)
          (figmaFetchJson (fun _ => FetchOutcome.err 429) (fun _ => 7)).waits.length :=
  (figmaFetchJson_backoff (fun _ => FetchOutcome.err 429) (fun _ => 7)
    (fun _ => by show (7 : Nat) < 250; decide)).2.1

/-! Claim C6: failure semantics of the worker pool. -/

/-- Death time contributed by one recorded run: the finish time of a
rejecting unit, nothing for a fulfilled or never-claimed unit. -/
def failFinish : Option ItemRun → Option Nat
  | some ir => if ir.ok then none else some ir.finish
  | none => none

theorem minIdx_eq_none (l : List Nat) : minIdx l = none ↔ l = [] := by
  cases l with
  | nil => simp [minIdx]
  | cons t ts =>
    rw [minIdx]
    cases minIdx ts with
    | none => simp
    | some p =>
      obtain ⟨i, m⟩ := p
      by_cases h : t ≤ m <;> simp [h]

theorem mapLimitRunAux_forall2 (items : List WorkItem) :
    ∀ avail, List.Forall₂ (fun it r => ∀ ir : ItemRun, r = some ir →
        ir.finish = ir.start + it.dur ∧ ir.ok = it.ok)
      items (mapLimitRunAux avail items).1 := by
  induction items with
  | nil =>
    intro avail
    rw [mapLimitRunAux]
    exact List.Forall₂.nil
  | cons it rest ih =>
    intro avail
    rw [mapLimitRunAux]
    cases hmin : minIdx avail with
    | none =>
      simp only []
      rw [List.forall₂_map_right_iff]
      rw [List.forall₂_same]
      intro x _ ir hir
      exact absurd hir (by simp)
    | some p =>
      obtain ⟨i, t⟩ := p
      by_cases hok : it.ok = true
      · simp only [hok, if_true]
        refine List.Forall₂.cons ?_ (ih _)
        intro ir hir
        injection hir with hir
        subst hir
        exact ⟨rfl, hok.symm⟩
      · simp only [hok, if_false]
        refine List.Forall₂.cons ?_ (ih _)
        intro ir hir
        injection hir with hir
        subst hir
        exact ⟨rfl, (Bool.not_eq_true _).mp hok ▸ rfl⟩

theorem mapLimitRunAux_deaths (items : List WorkItem) :
    ∀ avail, (mapLimitRunAux avail items).2
      = (mapLimitRunAux avail items).1.filterMap failFinish := by
  induction items with
  | nil =>
    intro avail
    rw [mapLimitRunAux]
    rfl
  | cons it rest ih =>
    intro avail
    rw [mapLimitRunAux]
    cases hmin : minIdx avail with
    | none =>
      simp only []
      rw [eq_comm, List.filterMap_eq_nil_iff]
      intro a ha
      rw [List.mem_map] at ha
      obtain ⟨_, _, rfl⟩ := ha
      rfl
    | some p =>
      obtain ⟨i, t⟩ := p
      by_cases hok : it.ok = true
      · simp only [hok, if_true]
        simp [failFinish, ih]
      · have hok' : it.ok = false := Bool.eq_false_iff.mpr hok
        simp only [hok', Bool.false_eq_true, if_false]
        simp [failFinish, ih]

theorem mapLimitRunAux_allClaimed (items : List WorkItem) :
    ∀ avail, avail ≠ [] → (∀ it ∈ items, it.ok = true) →
      ∀ r ∈ (mapLimitRunAux avail items).1, r ≠ none := by
  induction items with
  | nil =>
    intro avail _ _ r hr
    rw [mapLimitRunAux] at hr
    simp at hr
  | cons it rest ih =>
    intro avail havail hok r hr
    rw [mapLimitRunAux] at hr
    cases hmin : minIdx avail with
    | none => exact absurd ((minIdx_eq_none avail).mp hmin) havail
    | some p =>
      obtain ⟨i, t⟩ := p
      rw [hmin] at hr
      have hito : it.ok = true := hok it (List.mem_cons_self it rest)
      simp only [hito, if_true] at hr
      rw [List.mem_cons] at hr
      rcases hr with hr | hr
      · subst hr
        simp
      · refine ih (avail.set i (t + it.dur)) ?_ (fun x hx => hok x (List.mem_cons_of_mem it hx)) r hr
        intro hset
        apply havail
        have := congrArg List.length hset
        rw [List.length_set] at this
        exact List.eq_nil_of_length_eq_zero this

/-- Counterexample to claim C6: with limit 2 and two units — unit 0 rejects
after 1ms, unit 1 fulfills after 10ms — the pool call rejects at time 1,
before unit 1 has settled at time 10, so the pool does not return "only once
all units have settled". -/
theorem mapLimit_settles_early_counterexample :
    mapLimitFails 2 [⟨1, false⟩, ⟨10, true⟩] = true
    ∧ mapLimitSettle 2 [⟨1, false⟩, ⟨10, true⟩] = 1
    ∧ (mapLimitRun 2 [⟨1, false⟩, ⟨10, true⟩]).1
        = [some ⟨0, 1, false⟩, some ⟨0, 10, true⟩]
    ∧ mapLimitSettle 2 [⟨1, false⟩, ⟨10, true⟩] < 10 := by
  decide

/-- Claim C6 as amended: a failing unit never prevents an already-claimed
unit from running to completion — every recorded run finishes at
`start + dur` with its own success flag, independently of the other units —
and the pool call fails exactly when some claimed unit rejects, rejecting
with the earliest-finishing failure as soon as it settles (possibly before
other in-flight units settle, which is what the counterexample exhibits);
when every unit succeeds and the limit is at least 1, every unit is claimed
and executed. -/
theorem mapLimit_failure_semantics (limit : Nat) (items : List WorkItem)
    (h : 1 ≤ limit) :
    List.Forall₂ (fun it r => ∀ ir : ItemRun, r = some ir →
        ir.finish = ir.start + it.dur ∧ ir.ok = it.ok)
      items (mapLimitRun limit items).1
    ∧ (mapLimitRun limit items).2 = (mapLimitRun limit items).1.filterMap failFinish
    ∧ (mapLimitFails limit items = true ↔
        ∃ ir : ItemRun, some ir ∈ (mapLimitRun limit items).1 ∧ ir.ok = false)
    ∧ ((∀ it ∈ items, it.ok = true) → ∀ r ∈ (mapLimitRun limit items).1, r ≠ none) := by
  have h2 := mapLimitRunAux_deaths items (List.replicate (min limit items.length) 0)
  refine ⟨mapLimitRunAux_forall2 items _, h2, ?_, ?_⟩
  · unfold mapLimitFails
    rw [show (mapLimitRun limit items).2
        = (mapLimitRun limit items).1.filterMap failFinish from h2]
    constructor
    · intro hne
      have hne' : ¬ ((mapLimitRun limit items).1.filterMap failFinish = []) := by
        intro he
        rw [he] at hne
        simp at hne
      rw [List.filterMap_eq_nil_iff] at hne'
      push_neg at hne'
      obtain ⟨r, hr, hf⟩ := hne'
      cases r with
      | none => exact absurd rfl hf
      | some ir =>
        refine ⟨ir, hr, ?_⟩
        by_contra hok
        rw [Bool.not_eq_false] at hok
        exact hf (by simp [failFinish, hok])
    · rintro ⟨ir, hir, hok⟩
      have hmem : ir.finish ∈ (mapLimitRun limit items).1.filterMap failFinish := by
        rw [List.mem_filterMap]
        exact ⟨some ir, hir, by simp [failFinish, hok]⟩
      cases hfm : (mapLimitRun limit items).1.filterMap failFinish with
      | nil =>
        rw [hfm] at hmem
        simp at hmem
      | cons x xs =>
        rfl
  · intro hall r hr
    cases hitems : items with
    | nil =>
      rw [hitems] at hr
      unfold mapLimitRun at hr
      rw [mapLimitRunAux] at hr
      simp at hr
    | cons a l =>
      refine mapLimitRunAux_allClaimed items _ ?_ hall r hr
      intro he
      have := congrArg List.length he
      rw [List.length_replicate] at this
      rw [hitems] at this
      simp at this
      omega

/-- Concrete instantiation of `mapLimit_failure_semantics`. -/
theorem mapLimit_failure_semantics_witness :
    mapLimitFails 2 [⟨1, false⟩, ⟨10, true⟩] = true :=
  (mapLimit_failure_semantics 2 [⟨1, false⟩, ⟨10, true⟩] (by decide)).2.2.1.mpr
    ⟨⟨0, 1, false⟩, by decide, rfl⟩

/-! Crawl invariants, for claims C1, C2, C3, C7 and C10. -/

theorem lookupL_pick (fs : List (String × JVal)) (ks : List String) (k : String) :
    lookupL (pick fs ks) k =
      if k ∈ ks ∧ keyIn fs k = true then some (getL fs k) else none := by
  induction ks with
  | nil => simp [pick, lookupL]
  | cons k' rest ih =>
    by_cases hin : keyIn fs k' = true
    · rw [show pick fs (k' :: rest) = (k', getL fs k') :: pick fs rest by simp [pick, hin]]
      by_cases hk : k' = k
      · subst hk
        simp [lookupL, hin]
      · rw [show lookupL ((k', getL fs k') :: pick fs rest) k = lookupL (pick fs rest) k
            by simp [lookupL, hk]]
        rw [ih]
        simp [List.mem_cons, Ne.symm hk]
    · rw [show pick fs (k' :: rest) = pick fs rest by simp [pick, hin]]
      rw [ih]
      by_cases hk : k = k'
      · subst hk
        simp [hin]
      · simp [List.mem_cons, hk]

theorem lookupL_omit (fs : List (String × JVal)) (ban : List String) (k : String)
    (h : k ∉ ban) : lookupL (omitFields fs ban) k = lookupL fs k := by
  induction fs with
  | nil => simp [omitFields]
  | cons q rest ih =>
    obtain ⟨k', v⟩ := q
    by_cases hb : ban.contains k' = true
    · have hq : k' ∈ ban := by simpa using hb
      have hk : k' ≠ k := fun he => h (he ▸ hq)
      rw [show omitFields ((k', v) :: rest) ban = omitFields rest ban
          by simp [omitFields, List.filter_cons, hq]]
      rw [ih]
      simp [lookupL, hk]
    · have hq : k' ∉ ban := by simpa using hb
      rw [show omitFields ((k', v) :: rest) ban = (k', v) :: omitFields rest ban
          by simp [omitFields, List.filter_cons, hq]]
      by_cases hk : k' = k
      · simp [lookupL, hk]
      · simp only [lookupL, hk, if_false]
        exact ih

/-- Known mapping of a normalized node never records `visible = false` for a
document that passed the visibility check. -/
theorem normalize_visible (doc : JVal) (h : isVisibleNode doc = true) :
    lookupL (normalizeNode doc).known "visible" ≠ some (jBool false) := by
  intro hcon
  rw [show (normalizeNode doc).known
      = pick ((fieldsOf doc).filter (fun p => !geomKeys.contains p.1)) knownKeys
      from rfl] at hcon
  rw [lookupL_pick] at hcon
  by_cases hc : ("visible" ∈ knownKeys
      ∧ keyIn ((fieldsOf doc).filter (fun p => !geomKeys.contains p.1)) "visible" = true)
  · rw [if_pos hc] at hcon
    injection hcon with hcon
    have hlk : lookupL ((fieldsOf doc).filter (fun p => !geomKeys.contains p.1)) "visible"
        = lookupL (fieldsOf doc) "visible" :=
      lookupL_omit (fieldsOf doc) geomKeys "visible" (by decide)
    have hgf : getField doc "visible" = jBool false := by
      cases doc with
      | jObj fs =>
        unfold getField
        unfold getL at hcon
        rw [hlk] at hcon
        rw [show fieldsOf (jObj fs) = fs from rfl] at hcon
        unfold getL
        rw [← hcon]
      | jUndef => simp [fieldsOf, keyIn, lookupL] at hc
      | jNull => simp [fieldsOf, keyIn, lookupL] at hc
      | jBool b => simp [fieldsOf, keyIn, lookupL] at hc
      | jNum n => simp [fieldsOf, keyIn, lookupL] at hc
      | jStr s => simp [fieldsOf, keyIn, lookupL] at hc
      | jArr l => simp [fieldsOf, keyIn, lookupL] at hc
    rw [isVisibleNode, hgf] at h
    simp at h
  · rw [if_neg hc] at hcon
    exact Option.noConfusion hcon

/-- Every id in `childIds` is truthy (the source's `.filter(Boolean)`). -/
theorem childIds_truthy (doc : JVal) :
    ∀ c ∈ (normalizeNode doc).childIds, truthy c = true := by
  intro c hc
  unfold normalizeNode at hc
  simp only [] at hc
  cases hch : getField doc "children" with
  | jArr cs =>
    rw [hch] at hc
    simp only [] at hc
    exact (List.mem_filter.mp hc).2
  | jUndef => rw [hch] at hc; simp at hc
  | jNull => rw [hch] at hc; simp at hc
  | jBool b => rw [hch] at hc; simp at hc
  | jNum n => rw [hch] at hc; simp at hc
  | jStr s => rw [hch] at hc; simp at hc
  | jObj fs => rw [hch] at hc; simp at hc

theorem mapHasKey_iff (m : List (JVal × NormNode)) (x : JVal) :
    mapHasKey m x = true ↔ ∃ p ∈ m, p.1 = x := by
  simp [mapHasKey, List.any_eq_true]

theorem mem_mapSet (m : List (JVal × NormNode)) (k : JVal) (v : NormNode)
    (p : JVal × NormNode) (h : p ∈ mapSet m k v) : p = (k, v) ∨ p ∈ m := by
  unfold mapSet at h
  by_cases hk : mapHasKey m k = true
  · rw [if_pos hk] at h
    rw [List.mem_map] at h
    obtain ⟨q, hq, rfl⟩ := h
    by_cases hqk : q.1 = k
    · simp [hqk]
    · simp only [hqk, if_false]
      exact Or.inr hq
  · rw [if_neg hk] at h
    rw [List.mem_append] at h
    rcases h with h | h
    · exact Or.inr h
    · simp at h
      exact Or.inl (by rw [h])

theorem mapHasKey_mapSet_self (m : List (JVal × NormNode)) (k : JVal) (v : NormNode) :
    mapHasKey (mapSet m k v) k = true := by
  unfold mapSet
  by_cases hk : mapHasKey m k = true
  · rw [if_pos hk]
    rw [mapHasKey_iff] at hk ⊢
    obtain ⟨q, hq, hqk⟩ := hk
    refine ⟨(k, v), ?_, rfl⟩
    rw [List.mem_map]
    exact ⟨q, hq, by simp [hqk]⟩
  · rw [if_neg hk]
    rw [mapHasKey_iff]
    exact ⟨(k, v), by simp, rfl⟩

theorem mapHasKey_mapSet_mono (m : List (JVal × NormNode)) (k : JVal) (v : NormNode)
    (x : JVal) (h : mapHasKey m x = true) : mapHasKey (mapSet m k v) x = true := by
  unfold mapSet
  by_cases hk : mapHasKey m k = true
  · rw [if_pos hk]
    rw [mapHasKey_iff] at h ⊢
    obtain ⟨q, hq, hqx⟩ := h
    by_cases hqk : q.1 = k
    · refine ⟨(k, v), ?_, by rw [← hqx, hqk]⟩
      rw [List.mem_map]
      exact ⟨q, hq, by simp [hqk]⟩
    · refine ⟨q, ?_, hqx⟩
      rw [List.mem_map]
      exact ⟨q, hq, by simp [hqk]⟩
  · rw [if_neg hk]
    rw [mapHasKey_iff] at h ⊢
    obtain ⟨q, hq, hqx⟩ := h
    exact ⟨q, by simp [hq], hqx⟩

theorem enqueue_calls (st : CrawlState) (id : JVal) : (enqueue st id).calls = st.calls := by
  unfold enqueue
  split_ifs <;> rfl

theorem enqueue_nodeMap (st : CrawlState) (id : JVal) :
    (enqueue st id).nodeMap = st.nodeMap := by
  unfold enqueue
  split_ifs <;> rfl

theorem enqueue_queued_mono (st : CrawlState) (id : JVal) :
    ∀ x ∈ st.queued, x ∈ (enqueue st id).queued := by
  intro x hx
  unfold enqueue
  split_ifs <;> simp [hx]

theorem enqueue_post (st : CrawlState) (id : JVal) (h : truthy id = true) :
    id ∈ (enqueue st id).queued ∨ mapHasKey (enqueue st id).nodeMap id = true := by
  unfold enqueue
  rw [if_neg (by simp [h] : ¬ truthy id = false)]
  by_cases h1 : mapHasKey st.nodeMap id = true
  · rw [if_pos h1]
    exact Or.inr h1
  · rw [if_neg h1]
    by_cases h2 : id ∈ st.queued
    · rw [if_pos h2]
      exact Or.inl h2
    · rw [if_neg h2]
      exact Or.inl (by simp)

/-- Crawl invariant, parameterized by the batches of the current round that
have been formed (removed from the queue) but not yet dispatched. -/
structure InvP (st : CrawlState) (P : List (List JVal)) : Prop where
  nodup : (st.toExpand ++ P.flatten ++ st.calls.flatten).Nodup
  toExpand_queued : ∀ id ∈ st.toExpand, id ∈ st.queued
  pending_queued : ∀ id ∈ P.flatten, id ∈ st.queued
  calls_queued : ∀ id ∈ st.calls.flatten, id ∈ st.queued
  queued_covered : ∀ id ∈ st.queued,
      id ∈ st.toExpand ∨ id ∈ P.flatten ∨ id ∈ st.calls.flatten
  map_key_id : ∀ p ∈ st.nodeMap, p.1 = p.2.id
  map_visible : ∀ p ∈ st.nodeMap, lookupL p.2.known "visible" ≠ some (jBool false)

/-- Every stored node's children are either seen or themselves stored. -/
def ChildrenTracked (st : CrawlState) : Prop :=
  ∀ p ∈ st.nodeMap, ∀ c ∈ p.2.childIds,
    c ∈ st.queued ∨ mapHasKey st.nodeMap c = true

theorem enqueue_InvP (st : CrawlState) (P : List (List JVal)) (id : JVal)
    (h : InvP st P) : InvP (enqueue st id) P := by
  unfold enqueue
  by_cases h0 : truthy id = false
  · rw [if_pos h0]
    exact h
  rw [if_neg h0]
  by_cases h1 : mapHasKey st.nodeMap id = true
  · rw [if_pos h1]
    exact h
  rw [if_neg h1]
  by_cases h2 : id ∈ st.queued
  · rw [if_pos h2]
    exact h
  rw [if_neg h2]
  have hfresh : id ∉ st.toExpand ++ P.flatten ++ st.calls.flatten := by
    intro hm
    rw [List.append_assoc, List.mem_append, List.mem_append] at hm
    rcases hm with hm | hm | hm
    · exact h2 (h.toExpand_queued id hm)
    · exact h2 (h.pending_queued id hm)
    · exact h2 (h.calls_queued id hm)
  refine ⟨?_, ?_, ?_, ?_, ?_, h.map_key_id, h.map_visible⟩
  · have hperm : ((st.toExpand ++ [id]) ++ P.flatten ++ st.calls.flatten).Perm
        (id :: (st.toExpand ++ P.flatten ++ st.calls.flatten)) := by
      rw [List.perm_iff_count]
      intro a
      simp [List.count_append, List.count_cons]
      omega
    rw [hperm.nodup_iff]
    exact List.Nodup.cons hfresh h.nodup
  · intro x hx
    rw [List.mem_append] at hx
    rcases hx with hx | hx
    · simp [h.toExpand_queued x hx]
    · simp at hx
      simp [hx]
  · intro x hx
    simp [h.pending_queued x hx]
  · intro x hx
    simp [h.calls_queued x hx]
  · intro x hx
    simp only [List.mem_append] at hx ⊢
    rcases hx with hx | hx
    · rcases h.queued_covered x hx with hc | hc | hc
      · exact Or.inl (Or.inl hc)
      · exact Or.inr (Or.inl hc)
      · exact Or.inr (Or.inr hc)
    · simp at hx
      exact Or.inl (Or.inr (by simp [hx]))

theorem enqueue_ChildrenTracked (st : CrawlState) (id : JVal)
    (h : ChildrenTracked st) : ChildrenTracked (enqueue st id) := by
  intro p hp c hc
  rw [enqueue_nodeMap] at hp ⊢
  rcases h p hp c hc with hq | hk
  · exact Or.inl (enqueue_queued_mono st id c hq)
  · exact Or.inr hk

theorem foldl_enqueue_InvP (P : List (List JVal)) (cs : List JVal) :
    ∀ st, InvP st P → InvP (cs.foldl enqueue st) P := by
  induction cs with
  | nil => intro st h; exact h
  | cons c rest ih =>
    intro st h
    exact ih (enqueue st c) (enqueue_InvP st P c h)

theorem foldl_enqueue_ChildrenTracked (cs : List JVal) :
    ∀ st, ChildrenTracked st → ChildrenTracked (cs.foldl enqueue st) := by
  induction cs with
  | nil => intro st h; exact h
  | cons c rest ih =>
    intro st h
    exact ih (enqueue st c) (enqueue_ChildrenTracked st c h)

theorem foldl_enqueue_nodeMap (cs : List JVal) :
    ∀ st, (cs.foldl enqueue st).nodeMap = st.nodeMap := by
  induction cs with
  | nil => intro st; rfl
  | cons c rest ih =>
    intro st
    rw [List.foldl_cons, ih, enqueue_nodeMap]

theorem foldl_enqueue_calls (cs : List JVal) :
    ∀ st, (cs.foldl enqueue st).calls = st.calls := by
  induction cs with
  | nil => intro st; rfl
  | cons c rest ih =>
    intro st
    rw [List.foldl_cons, ih, enqueue_calls]

theorem foldl_enqueue_queued_mono (cs : List JVal) :
    ∀ st, ∀ x ∈ st.queued, x ∈ (cs.foldl enqueue st).queued := by
  induction cs with
  | nil => intro st x hx; exact hx
  | cons c rest ih =>
    intro st x hx
    exact ih (enqueue st c) x (enqueue_queued_mono st c x hx)

theorem foldl_enqueue_children (cs : List JVal) (hall : ∀ c ∈ cs, truthy c = true) :
    ∀ st, ∀ c ∈ cs, c ∈ (cs.foldl enqueue st).queued
      ∨ mapHasKey (cs.foldl enqueue st).nodeMap c = true := by
  induction cs with
  | nil => intro st c hc; simp at hc
  | cons c0 rest ih =>
    intro st c hc
    rw [List.mem_cons] at hc
    rw [List.foldl_cons]
    rcases hc with rfl | hc
    · rcases enqueue_post st c (hall c (by simp)) with hq | hk
      · exact Or.inl (foldl_enqueue_queued_mono rest (enqueue st c) c hq)
      · rw [foldl_enqueue_nodeMap]
        exact Or.inr hk
    · exact ih (fun x hx => hall x (by simp [hx])) (enqueue st c0) c hc

theorem foldl_preserve {α σ : Type} (Inv : σ → Prop) (f : σ → α → σ)
    (hstep : ∀ s x, Inv s → Inv (f s x)) :
    ∀ (l : List α) (s : σ), Inv s → Inv (l.foldl f s) := by
  intro l
  induction l with
  | nil => intro s h; exact h
  | cons x rest ih =>
    intro s h
    exact ih (f s x) (hstep s x h)

theorem enqueue_queued_from (st : CrawlState) (id : JVal) :
    ∀ x ∈ (enqueue st id).queued, x ∈ st.queued ∨ x = id := by
  intro x hx
  unfold enqueue at hx
  split_ifs at hx
  · exact Or.inl hx
  · exact Or.inl hx
  · exact Or.inl hx
  · rw [List.mem_append] at hx
    rcases hx with hx | hx
    · exact Or.inl hx
    · simp at hx
      exact Or.inr hx

theorem foldl_enqueue_queued_from (cs : List JVal) :
    ∀ st, ∀ x ∈ (cs.foldl enqueue st).queued, x ∈ st.queued ∨ x ∈ cs := by
  induction cs with
  | nil =>
    intro st x hx
    exact Or.inl hx
  | cons c rest ih =>
    intro st x hx
    rw [List.foldl_cons] at hx
    rcases ih (enqueue st c) x hx with hx' | hx'
    · rcases enqueue_queued_from st c x hx' with h | h
      · exact Or.inl h
      · exact Or.inr (by simp [h])
    · exact Or.inr (by simp [hx'])

theorem handleId_InvP (fetcher : Fetcher) (n : Nat) (ids : List JVal)
    (st : CrawlState) (id : JVal) (P : List (List JVal)) (h : InvP st P) :
    InvP (handleId fetcher n ids st id) P := by
  unfold handleId
  by_cases h1 : truthy (fetcher n ids id) = false
  · rw [if_pos h1]
    exact h
  rw [if_neg h1]
  by_cases h2 : truthy (getField (fetcher n ids id) "document") = false
  · rw [if_pos h2]
    exact h
  rw [if_neg h2]
  by_cases h3 : isVisibleNode (getField (fetcher n ids id) "document") = false
  · rw [if_pos h3]
    exact h
  rw [if_neg h3]
  apply foldl_enqueue_InvP
  refine ⟨h.nodup, h.toExpand_queued, h.pending_queued, h.calls_queued,
    h.queued_covered, ?_, ?_⟩
  · intro p hp
    rcases mem_mapSet _ _ _ p hp with rfl | hp'
    · rfl
    · exact h.map_key_id p hp'
  · intro p hp
    rcases mem_mapSet _ _ _ p hp with rfl | hp'
    · exact normalize_visible _ (by simpa using h3)
    · exact h.map_visible p hp'

theorem handleId_calls (fetcher : Fetcher) (n : Nat) (ids : List JVal)
    (st : CrawlState) (id : JVal) :
    (handleId fetcher n ids st id).calls = st.calls := by
  unfold handleId
  by_cases h1 : truthy (fetcher n ids id) = false
  · rw [if_pos h1]
  rw [if_neg h1]
  by_cases h2 : truthy (getField (fetcher n ids id) "document") = false
  · rw [if_pos h2]
  rw [if_neg h2]
  by_cases h3 : isVisibleNode (getField (fetcher n ids id) "document") = false
  · rw [if_pos h3]
  rw [if_neg h3]
  rw [foldl_enqueue_calls]

theorem handleId_queued_mono (fetcher : Fetcher) (n : Nat) (ids : List JVal)
    (st : CrawlState) (id : JVal) :
    ∀ x ∈ st.queued, x ∈ (handleId fetcher n ids st id).queued := by
  intro x hx
  unfold handleId
  by_cases h1 : truthy (fetcher n ids id) = false
  · rw [if_pos h1]
    exact hx
  rw [if_neg h1]
  by_cases h2 : truthy (getField (fetcher n ids id) "document") = false
  · rw [if_pos h2]
    exact hx
  rw [if_neg h2]
  by_cases h3 : isVisibleNode (getField (fetcher n ids id) "document") = false
  · rw [if_pos h3]
    exact hx
  rw [if_neg h3]
  exact foldl_enqueue_queued_mono _ _ x hx

theorem handleId_hasKey_mono (fetcher : Fetcher) (n : Nat) (ids : List JVal)
    (st : CrawlState) (id : JVal) (x : JVal)
    (h : mapHasKey st.nodeMap x = true) :
    mapHasKey (handleId fetcher n ids st id).nodeMap x = true := by
  unfold handleId
  by_cases h1 : truthy (fetcher n ids id) = false
  · rw [if_pos h1]
    exact h
  rw [if_neg h1]
  by_cases h2 : truthy (getField (fetcher n ids id) "document") = false
  · rw [if_pos h2]
    exact h
  rw [if_neg h2]
  by_cases h3 : isVisibleNode (getField (fetcher n ids id) "document") = false
  · rw [if_pos h3]
    exact h
  rw [if_neg h3]
  rw [foldl_enqueue_nodeMap]
  exact mapHasKey_mapSet_mono _ _ _ x h

theorem handleId_ChildrenTracked (fetcher : Fetcher) (n : Nat) (ids : List JVal)
    (st : CrawlState) (id : JVal) (h : ChildrenTracked st) :
    ChildrenTracked (handleId fetcher n ids st id) := by
  unfold handleId
  by_cases h1 : truthy (fetcher n ids id) = false
  · rw [if_pos h1]
    exact h
  rw [if_neg h1]
  by_cases h2 : truthy (getField (fetcher n ids id) "document") = false
  · rw [if_pos h2]
    exact h
  rw [if_neg h2]
  by_cases h3 : isVisibleNode (getField (fetcher n ids id) "document") = false
  · rw [if_pos h3]
    exact h
  rw [if_neg h3]
  intro p hp c hc
  rw [foldl_enqueue_nodeMap] at hp
  rcases mem_mapSet _ _ _ p hp with rfl | hp'
  · exact foldl_enqueue_children _ (childIds_truthy _) _ c hc
  · rcases h p hp' c hc with hq | hk
    · exact Or.inl (foldl_enqueue_queued_mono _ _ c hq)
    · rw [foldl_enqueue_nodeMap]
      exact Or.inr (mapHasKey_mapSet_mono _ _ _ c hk)

theorem processBatch_InvP (fetcher : Fetcher) (st : CrawlState) (ids : List JVal)
    (P : List (List JVal)) (h : InvP st (ids :: P)) :
    InvP (processBatch fetcher st ids) P := by
  unfold processBatch
  have h1 : InvP { st with calls := st.calls ++ [ids] } P := by
    refine ⟨?_, h.toExpand_queued, ?_, ?_, ?_, h.map_key_id, h.map_visible⟩
    · have hperm : (st.toExpand ++ P.flatten ++ (st.calls ++ [ids]).flatten).Perm
          (st.toExpand ++ (ids :: P).flatten ++ st.calls.flatten) := by
        rw [List.perm_iff_count]
        intro a
        simp [List.count_append]
        omega
      exact hperm.nodup_iff.mpr h.nodup
    · intro x hx
      apply h.pending_queued
      rw [List.flatten_cons, List.mem_append]
      exact Or.inr hx
    · intro x hx
      rw [List.flatten_append] at hx
      rw [List.mem_append] at hx
      rcases hx with hx | hx
      · exact h.calls_queued x hx
      · apply h.pending_queued
        rw [List.flatten_cons, List.mem_append]
        simp at hx
        exact Or.inl hx
    · intro x hx
      rcases h.queued_covered x hx with hc | hc | hc
      · exact Or.inl hc
      · rw [List.flatten_cons, List.mem_append] at hc
        rcases hc with hc | hc
        · refine Or.inr (Or.inr ?_)
          rw [List.flatten_append, List.mem_append]
          exact Or.inr (by simp [hc])
        · exact Or.inr (Or.inl hc)
      · refine Or.inr (Or.inr ?_)
        rw [List.flatten_append, List.mem_append]
        exact Or.inl hc
  exact foldl_preserve (fun s => InvP s P) _
    (fun s x hs => handleId_InvP fetcher _ ids s x P hs) ids _ h1

theorem processBatch_ChildrenTracked (fetcher : Fetcher) (st : CrawlState)
    (ids : List JVal) (h : ChildrenTracked st) :
    ChildrenTracked (processBatch fetcher st ids) := by
  unfold processBatch
  have h1 : ChildrenTracked { st with calls := st.calls ++ [ids] } := h
  exact foldl_preserve ChildrenTracked _
    (fun s x hs => handleId_ChildrenTracked fetcher _ ids s x hs) ids _ h1

/-- World-specific invariant: every seen id is visibly reachable from the
root, and every dispatched id whose document exists, is visible, and carries
its own id is stored in the map. -/
structure InvW (world : JVal → JVal) (root : JVal) (st : CrawlState) : Prop where
  queued_reach : ∀ id ∈ st.queued, Reaches world root id
  stored_good : ∀ id ∈ st.calls.flatten, goodDoc world id = true →
      mapHasKey st.nodeMap id = true

theorem handleId_reach (world : JVal → JVal) (root : JVal) (n : Nat) (ids : List JVal)
    (st : CrawlState) (id : JVal) (hid : Reaches world root id)
    (hq : ∀ q ∈ st.queued, Reaches world root q) :
    ∀ q ∈ (handleId (worldFetcher world) n ids st id).queued, Reaches world root q := by
  unfold handleId
  by_cases h1 : truthy (worldFetcher world n ids id) = false
  · rw [if_pos h1]
    exact hq
  rw [if_neg h1]
  by_cases h2 : truthy (getField (worldFetcher world n ids id) "document") = false
  · rw [if_pos h2]
    exact hq
  rw [if_neg h2]
  by_cases h3 : isVisibleNode (getField (worldFetcher world n ids id) "document") = false
  · rw [if_pos h3]
    exact hq
  rw [if_neg h3]
  intro q hqm
  rcases foldl_enqueue_queued_from _ _ q hqm with hql | hqc
  · exact hq q hql
  · have h1' : ¬ truthy (world id) = false := h1
    have h2' : ¬ truthy (getField (world id) "document") = false := h2
    have h3' : isVisibleNode (getField (world id) "document") = true := by simpa using h3
    have hwc : q ∈ worldChildren world id := by
      simp only [worldChildren, worldEntryDoc]
      rw [if_neg h1', if_neg h2']
      simp only [Option.some.injEq]
      rw [if_pos h3']
      exact hqc
    exact Reaches.step hid hwc

theorem handleId_good_stored (world : JVal → JVal) (n : Nat) (ids : List JVal)
    (st : CrawlState) (id : JVal) (hgood : goodDoc world id = true) :
    mapHasKey (handleId (worldFetcher world) n ids st id).nodeMap id = true := by
  simp only [goodDoc, worldEntryDoc] at hgood
  by_cases h1 : truthy (world id) = false
  · rw [if_pos h1] at hgood
    simp at hgood
  rw [if_neg h1] at hgood
  by_cases h2 : truthy (getField (world id) "document") = false
  · rw [if_pos h2] at hgood
    simp at hgood
  rw [if_neg h2] at hgood
  simp only [Bool.and_eq_true, decide_eq_true_eq] at hgood
  obtain ⟨hvis, hid⟩ := hgood
  unfold handleId
  rw [if_neg (show ¬ truthy (worldFetcher world n ids id) = false from h1)]
  rw [if_neg (show ¬ truthy (getField (worldFetcher world n ids id) "document") = false from h2)]
  rw [if_neg (show ¬ isVisibleNode (getField (worldFetcher world n ids id) "document") = false
      from by simp [worldFetcher, hvis])]
  rw [foldl_enqueue_nodeMap]
  have hni : (normalizeNode (getField (worldFetcher world n ids id) "document")).id = id := hid
  rw [hni]
  exact mapHasKey_mapSet_self _ _ _

theorem foldl_handleId_calls (fetcher : Fetcher) (n : Nat) (ids0 : List JVal)
    (l : List JVal) : ∀ st,
    (l.foldl (handleId fetcher n ids0) st).calls = st.calls := by
  induction l with
  | nil => intro st; rfl
  | cons x rest ih =>
    intro st
    rw [List.foldl_cons, ih, handleId_calls]

theorem foldl_handleId_hasKey_mono (fetcher : Fetcher) (n : Nat) (ids0 : List JVal)
    (l : List JVal) (x : JVal) : ∀ st, mapHasKey st.nodeMap x = true →
    mapHasKey ((l.foldl (handleId fetcher n ids0) st)).nodeMap x = true := by
  induction l with
  | nil => intro st h; exact h
  | cons y rest ih =>
    intro st h
    exact ih _ (handleId_hasKey_mono fetcher n ids0 st y x h)

theorem foldl_handleId_good_stored (world : JVal → JVal) (n : Nat) (ids0 : List JVal)
    (l : List JVal) : ∀ st, ∀ id ∈ l, goodDoc world id = true →
    mapHasKey ((l.foldl (handleId (worldFetcher world) n ids0) st)).nodeMap id = true := by
  induction l with
  | nil =>
    intro st id hid
    simp at hid
  | cons y rest ih =>
    intro st id hid hgood
    rw [List.mem_cons] at hid
    rw [List.foldl_cons]
    rcases hid with rfl | hid
    · exact foldl_handleId_hasKey_mono _ n ids0 rest id _
        (handleId_good_stored world n ids0 st id hgood)
    · exact ih _ id hid hgood

theorem foldl_handleId_reach (world : JVal → JVal) (root : JVal) (n : Nat)
    (ids0 : List JVal) (l : List JVal) (hl : ∀ id ∈ l, Reaches world root id) :
    ∀ st, (∀ q ∈ st.queued, Reaches world root q) →
    ∀ q ∈ ((l.foldl (handleId (worldFetcher world) n ids0) st)).queued,
      Reaches world root q := by
  induction l with
  | nil =>
    intro st h q hq
    exact h q hq
  | cons y rest ih =>
    intro st h q hq
    rw [List.foldl_cons] at hq
    exact ih (fun x hx => hl x (by simp [hx])) _
      (handleId_reach world root n ids0 st y (hl y (by simp)) h) q hq

theorem processBatch_InvW (world : JVal → JVal) (root : JVal) (st : CrawlState)
    (ids : List JVal) (hreach : ∀ id ∈ ids, Reaches world root id)
    (h : InvW world root st) :
    InvW world root (processBatch (worldFetcher world) st ids) := by
  unfold processBatch
  constructor
  · exact foldl_handleId_reach world root _ ids ids hreach _ h.queued_reach
  · intro id hid hgood
    rw [foldl_handleId_calls] at hid
    simp only [List.flatten_append] at hid
    rw [List.mem_append] at hid
    rcases hid with hid | hid
    · exact foldl_handleId_hasKey_mono _ _ ids ids id _
        (h.stored_good id hid hgood)
    · simp at hid
      exact foldl_handleId_good_stored world _ ids ids _ id hid hgood

/-! Batch formation and round-level preservation. -/

theorem chunksUpTo_join (batchSize : Nat) :
    ∀ (k : Nat) (q : List JVal),
      (chunksUpTo batchSize k q).1.flatten ++ (chunksUpTo batchSize k q).2 = q := by
  intro k
  induction k with
  | zero => intro q; simp [chunksUpTo]
  | succ k ih =>
    intro q
    rw [chunksUpTo]
    by_cases hq : q.isEmpty
    · rw [if_pos hq]
      simp
    rw [if_neg hq]
    by_cases hb : (q.take batchSize).isEmpty
    · rw [if_pos hb]
      simp
    rw [if_neg hb]
    simp only [List.flatten_cons, List.append_assoc]
    rw [ih (q.drop batchSize)]
    exact List.take_append_drop batchSize q

theorem formBatches_join (batchSize concurrency : Nat) (q : List JVal) :
    (formBatches batchSize concurrency q).1.flatten
      ++ (formBatches batchSize concurrency q).2 = q := by
  unfold formBatches
  simp only [List.flatten_cons, List.append_assoc]
  rw [chunksUpTo_join]
  exact List.take_append_drop batchSize q

theorem foldl_processBatch_InvP (fetcher : Fetcher) (bs : List (List JVal)) :
    ∀ st, InvP st bs → InvP (bs.foldl (processBatch fetcher) st) [] := by
  induction bs with
  | nil => intro st h; exact h
  | cons b rest ih =>
    intro st h
    exact ih _ (processBatch_InvP fetcher st b rest h)

theorem foldl_processBatch_InvW (world : JVal → JVal) (root : JVal)
    (bs : List (List JVal)) :
    ∀ st, InvP st bs → InvW world root st →
      InvW world root (bs.foldl (processBatch (worldFetcher world)) st) := by
  induction bs with
  | nil => intro st _ h; exact h
  | cons b rest ih =>
    intro st hp h
    refine ih _ (processBatch_InvP _ st b rest hp) (processBatch_InvW world root st b ?_ h)
    intro id hid
    apply h.queued_reach
    apply hp.pending_queued
    rw [List.flatten_cons, List.mem_append]
    exact Or.inl hid

theorem crawlStep_InvP (fetcher : Fetcher) (sched : Schedule)
    (batchSize concurrency r : Nat) (hs : SchedulePerm sched) (st : CrawlState)
    (h : InvP st []) :
    InvP (crawlStep fetcher sched batchSize concurrency r st) [] := by
  unfold crawlStep
  apply foldl_processBatch_InvP
  have hq := formBatches_join batchSize concurrency st.toExpand
  have hperm : List.Perm (sched r (formBatches batchSize concurrency st.toExpand).1)
      (formBatches batchSize concurrency st.toExpand).1 := hs r _
  have hjoin : ∀ a, (sched r (formBatches batchSize concurrency st.toExpand).1).flatten.count a
      = (formBatches batchSize concurrency st.toExpand).1.flatten.count a := by
    intro a
    exact (hperm.join).count_eq a
  have hmemj : ∀ x, x ∈ (sched r (formBatches batchSize concurrency st.toExpand).1).flatten
      ↔ x ∈ (formBatches batchSize concurrency st.toExpand).1.flatten := by
    intro x
    exact (hperm.join).mem_iff
  refine ⟨?_, ?_, ?_, ?_, ?_, h.map_key_id, h.map_visible⟩
  · have hperm2 : ((formBatches batchSize concurrency st.toExpand).2
        ++ (sched r (formBatches batchSize concurrency st.toExpand).1).flatten
        ++ st.calls.flatten).Perm
        (st.toExpand ++ ([] : List (List JVal)).flatten ++ st.calls.flatten) := by
      rw [List.perm_iff_count]
      intro a
      have hcq := congrArg (List.count a) hq
      rw [List.count_append] at hcq
      simp [List.count_append, hjoin a]
      omega
    exact hperm2.nodup_iff.mpr h.nodup
  · intro x hx
    apply h.toExpand_queued
    rw [← hq, List.mem_append]
    exact Or.inr hx
  · intro x hx
    apply h.toExpand_queued
    rw [← hq, List.mem_append]
    exact Or.inl ((hmemj x).mp hx)
  · intro x hx
    exact h.calls_queued x hx
  · intro x hx
    rcases h.queued_covered x hx with hc | hc | hc
    · rw [← hq, List.mem_append] at hc
      rcases hc with hc | hc
      · exact Or.inr (Or.inl ((hmemj x).mpr hc))
      · exact Or.inl hc
    · simp at hc
    · exact Or.inr (Or.inr hc)

theorem crawlStep_ChildrenTracked (fetcher : Fetcher) (sched : Schedule)
    (batchSize concurrency r : Nat) (st : CrawlState) (h : ChildrenTracked st) :
    ChildrenTracked (crawlStep fetcher sched batchSize concurrency r st) := by
  unfold crawlStep
  apply foldl_preserve ChildrenTracked _
    (fun s x hs => processBatch_ChildrenTracked fetcher s x hs)
  exact h

theorem crawlStep_InvW (world : JVal → JVal) (root : JVal) (sched : Schedule)
    (batchSize concurrency r : Nat) (hs : SchedulePerm sched) (st : CrawlState)
    (hp : InvP st []) (h : InvW world root st) :
    InvW world root (crawlStep (worldFetcher world) sched batchSize concurrency r st) := by
  unfold crawlStep
  apply foldl_processBatch_InvW
  · -- InvP of the intermediate state with the scheduled batches pending
    have h2 := crawlStep_InvP (worldFetcher world) sched batchSize concurrency r hs st hp
    -- reprove the pending form directly (same argument as crawlStep_InvP)
    have hq := formBatches_join batchSize concurrency st.toExpand
    have hperm : List.Perm (sched r (formBatches batchSize concurrency st.toExpand).1)
        (formBatches batchSize concurrency st.toExpand).1 := hs r _
    have hjoin : ∀ a, (sched r (formBatches batchSize concurrency st.toExpand).1).flatten.count a
        = (formBatches batchSize concurrency st.toExpand).1.flatten.count a :=
      fun a => (hperm.join).count_eq a
    have hmemj : ∀ x, x ∈ (sched r (formBatches batchSize concurrency st.toExpand).1).flatten
        ↔ x ∈ (formBatches batchSize concurrency st.toExpand).1.flatten :=
      fun x => (hperm.join).mem_iff
    refine ⟨?_, ?_, ?_, ?_, ?_, hp.map_key_id, hp.map_visible⟩
    · have hperm2 : ((formBatches batchSize concurrency st.toExpand).2
          ++ (sched r (formBatches batchSize concurrency st.toExpand).1).flatten
          ++ st.calls.flatten).Perm
          (st.toExpand ++ ([] : List (List JVal)).flatten ++ st.calls.flatten) := by
        rw [List.perm_iff_count]
        intro a
        have hcq := congrArg (List.count a) hq
        rw [List.count_append] at hcq
        simp [List.count_append, hjoin a]
        omega
      exact hperm2.nodup_iff.mpr hp.nodup
    · intro x hx
      apply hp.toExpand_queued
      rw [← hq, List.mem_append]
      exact Or.inr hx
    · intro x hx
      apply hp.toExpand_queued
      rw [← hq, List.mem_append]
      exact Or.inl ((hmemj x).mp hx)
    · intro x hx
      exact hp.calls_queued x hx
    · intro x hx
      rcases hp.queued_covered x hx with hc | hc | hc
      · rw [← hq, List.mem_append] at hc
        rcases hc with hc | hc
        · exact Or.inr (Or.inl ((hmemj x).mpr hc))
        · exact Or.inl hc
      · simp at hc
      · exact Or.inr (Or.inr hc)
  · exact ⟨h.queued_reach, h.stored_good⟩

theorem crawlRounds_preserve (fetcher : Fetcher) (sched : Schedule)
    (batchSize concurrency : Nat) (hs : SchedulePerm sched) :
    ∀ (fuel : Nat) (st : CrawlState), InvP st [] → ChildrenTracked st →
      InvP (crawlRounds fetcher sched batchSize concurrency fuel st) []
      ∧ ChildrenTracked (crawlRounds fetcher sched batchSize concurrency fuel st) := by
  intro fuel
  induction fuel with
  | zero =>
    intro st h1 h2
    exact ⟨h1, h2⟩
  | succ k ih =>
    intro st h1 h2
    rw [crawlRounds]
    by_cases he : st.toExpand.isEmpty
    · rw [if_pos he]
      exact ⟨h1, h2⟩
    · rw [if_neg he]
      exact ih _ (crawlStep_InvP fetcher sched batchSize concurrency k hs st h1)
        (crawlStep_ChildrenTracked fetcher sched batchSize concurrency k st h2)

theorem crawlRounds_InvW (world : JVal → JVal) (root : JVal) (sched : Schedule)
    (batchSize concurrency : Nat) (hs : SchedulePerm sched) :
    ∀ (fuel : Nat) (st : CrawlState), InvP st [] → InvW world root st →
      InvW world root (crawlRounds (worldFetcher world) sched batchSize concurrency fuel st) := by
  intro fuel
  induction fuel with
  | zero =>
    intro st _ h2
    exact h2
  | succ k ih =>
    intro st h1 h2
    rw [crawlRounds]
    by_cases he : st.toExpand.isEmpty
    · rw [if_pos he]
      exact h2
    · rw [if_neg he]
      exact ih _ (crawlStep_InvP (worldFetcher world) sched batchSize concurrency k hs st h1)
        (crawlStep_InvW world root sched batchSize concurrency k hs st h1 h2)

theorem initState_InvP (rootId : JVal) : InvP (initState rootId) [] := by
  apply enqueue_InvP
  refine ⟨?_, ?_, ?_, ?_, ?_, ?_, ?_⟩ <;> simp

theorem initState_ChildrenTracked (rootId : JVal) : ChildrenTracked (initState rootId) := by
  apply enqueue_ChildrenTracked
  intro p hp
  simp at hp

theorem initState_InvW (world : JVal → JVal) (rootId : JVal) :
    InvW world rootId (initState rootId) := by
  constructor
  · intro id hid
    unfold initState at hid
    rcases enqueue_queued_from _ rootId id hid with h | h
    · simp at h
    · rw [h]
      exact Reaches.root
  · intro id hid
    unfold initState at hid
    rw [enqueue_calls] at hid
    simp at hid

/-! Concrete worlds and schedules used to instantiate the crawl theorems. -/

/-- Identity schedule: batches complete in dispatch order. -/
def schedId : Schedule := fun _ bs => bs

/-- Minimal world: one root document with no children. -/
def worldM : JVal → JVal
  | jStr "r" => jObj [("document", jObj [("id", jStr "r")])]
  | _ => jUndef

/-- World with one visible child: `r` lists child stub `a`; `a` has a
visible document of its own. -/
def worldW : JVal → JVal
  | jStr "r" => jObj [("document", jObj [("id", jStr "r"),
      ("children", jArr [jObj [("id", jStr "a")]])])]
  | jStr "a" => jObj [("document", jObj [("id", jStr "a")])]
  | _ => jUndef

/-- World refuting claim C3: the root's child stub `c` is visible by
omission, but the fetched document of `c` carries `visible = false`, so `c`
is dispatched yet never stored, leaving a dangling reference in the root's
`childIds`. -/
def world3 : JVal → JVal
  | jStr "r" => jObj [("document", jObj [("id", jStr "r"),
      ("children", jArr [jObj [("id", jStr "c")]])])]
  | jStr "c" => jObj [("document", jObj [("id", jStr "c"), ("visible", jBool false)])]
  | _ => jUndef

/-- Claim C1: for every crawl — any fetcher behaviour, any permutation
schedule of each round's batches, `batchSize ≥ 1`, `concurrency ≥ 1`, any
number of rounds — no identifier is ever repeated across the pending queue
and the dispatched batches, so every identifier is enqueued at most once
and appears in at most one dispatched batch. -/
theorem crawlSubtree_dedup (fetcher : Fetcher) (sched : Schedule) (rootId : JVal)
    (batchSize concurrency fuel : Nat) (_hb : 1 ≤ batchSize) (_hc : 1 ≤ concurrency)
    (hs : SchedulePerm sched) :
    ((crawlSubtree fetcher sched rootId batchSize concurrency fuel).toExpand
      ++ (crawlSubtree fetcher sched rootId batchSize concurrency fuel).calls.flatten).Nodup := by
  have h := (crawlRounds_preserve fetcher sched batchSize concurrency hs fuel
    (initState rootId) (initState_InvP rootId) (initState_ChildrenTracked rootId)).1
  have hn := h.nodup
  simpa [crawlSubtree] using hn

/-- Concrete instantiation of `crawlSubtree_dedup`. -/
theorem crawlSubtree_dedup_witness :
    ((crawlSubtree (worldFetcher worldW) schedId (jStr "r") 2 2 3).toExpand
      ++ (crawlSubtree (worldFetcher worldW) schedId (jStr "r") 2 2 3).calls.flatten).Nodup :=
  crawlSubtree_dedup (worldFetcher worldW) schedId (jStr "r") 2 2 3
    (by decide) (by decide) (fun _ bs => List.Perm.refl bs)

/-- Claim C10: at every reachable point of every crawl, each entry of the
result map is keyed by the stored node's own `id` field (the id of the
fetched document), even when that differs from the requested identifier. -/
theorem crawlSubtree_mapKeyId (fetcher : Fetcher) (sched : Schedule) (rootId : JVal)
    (batchSize concurrency fuel : Nat) (_hb : 1 ≤ batchSize) (_hc : 1 ≤ concurrency)
    (hs : SchedulePerm sched) :
    ∀ p ∈ (crawlSubtree fetcher sched rootId batchSize concurrency fuel).nodeMap,
      p.1 = p.2.id := by
  have h := (crawlRounds_preserve fetcher sched batchSize concurrency hs fuel
    (initState rootId) (initState_InvP rootId) (initState_ChildrenTracked rootId)).1
  exact h.map_key_id

/-- Concrete instantiation of `crawlSubtree_mapKeyId`. -/
theorem crawlSubtree_mapKeyId_witness :
    (jStr "r" : JVal)
      = (⟨jStr "r", jUndef, jUndef, [], [("id", jStr "r")], []⟩ : NormNode).id :=
  crawlSubtree_mapKeyId (worldFetcher worldM) schedId (jStr "r") 1 1 2
    (by decide) (by decide) (fun _ bs => List.Perm.refl bs)
    (jStr "r", ⟨jStr "r", jUndef, jUndef, [], [("id", jStr "r")], []⟩) (by decide)

/-- Claim C2: for every crawl over a functional remote world, a document
with `visible = false` is never stored (the stored `known` mapping never
records `visible = false`), invisible child stubs are never enqueued, and
every dispatched identifier is visibly reachable from the root — so an
identifier reachable only through an invisible node never appears in any
dispatched batch. -/
theorem crawlSubtree_invisible_pruned (world : JVal → JVal) (sched : Schedule)
    (rootId : JVal) (batchSize concurrency fuel : Nat)
    (_hb : 1 ≤ batchSize) (_hc : 1 ≤ concurrency) (hs : SchedulePerm sched) :
    (∀ p ∈ (crawlSubtree (worldFetcher world) sched rootId
        batchSize concurrency fuel).nodeMap,
        lookupL p.2.known "visible" ≠ some (jBool false))
    ∧ (∀ id ∈ (crawlSubtree (worldFetcher world) sched rootId
        batchSize concurrency fuel).calls.flatten,
        Reaches world rootId id) := by
  have hP := (crawlRounds_preserve (worldFetcher world) sched batchSize concurrency hs fuel
    (initState rootId) (initState_InvP rootId) (initState_ChildrenTracked rootId)).1
  have hW := crawlRounds_InvW world rootId sched batchSize concurrency hs fuel
    (initState rootId) (initState_InvP rootId) (initState_InvW world rootId)
  exact ⟨hP.map_visible, fun id hid => hW.queued_reach id (hP.calls_queued id hid)⟩

/-- Concrete instantiation of `crawlSubtree_invisible_pruned`. -/
theorem crawlSubtree_invisible_pruned_witness :
    lookupL (⟨jStr "r", jUndef, jUndef, [], [("id", jStr "r")], []⟩ : NormNode).known "visible"
      ≠ some (jBool false)
    ∧ Reaches worldM (jStr "r") (jStr "r") :=
  ⟨(crawlSubtree_invisible_pruned worldM schedId (jStr "r") 1 1 2
      (by decide) (by decide) (fun _ bs => List.Perm.refl bs)).1
      (jStr "r", ⟨jStr "r", jUndef, jUndef, [], [("id", jStr "r")], []⟩) (by decide),
    (crawlSubtree_invisible_pruned worldM schedId (jStr "r") 1 1 2
      (by decide) (by decide) (fun _ bs => List.Perm.refl bs)).2 (jStr "r") (by decide)⟩

/-- Counterexample to claim C3: in `world3` the crawl completes without any
error (every fetch succeeds), the root is stored with `c` among its
`childIds`, yet `c` is not a key of the final map — its fetched document
was invisible, so it was silently dropped, leaving a dangling reference. -/
theorem crawl_completeness_counterexample :
    (crawlSubtree (worldFetcher world3) schedId (jStr "r") 1 1 5).toExpand = []
    ∧ mapHasKey (crawlSubtree (worldFetcher world3) schedId (jStr "r") 1 1 5).nodeMap
        (jStr "r") = true
    ∧ (jStr "c") ∈ ((crawlSubtree (worldFetcher world3) schedId (jStr "r") 1 1 5).nodeMap.map
        (fun p => p.2.childIds)).flatten
    ∧ mapHasKey (crawlSubtree (worldFetcher world3) schedId (jStr "r") 1 1 5).nodeMap
        (jStr "c") = false := by
  decide

/-- Claim C3 as amended: in a completed crawl (empty queue) over a
functional world, every id in the `childIds` of a stored node is a key of
the final map provided its fetch returns a present, visible document
carrying that same id; ids whose documents are absent, invisible, or
differently keyed may remain dangling. -/
theorem crawl_completeness_amended (world : JVal → JVal) (sched : Schedule)
    (rootId : JVal) (batchSize concurrency fuel : Nat)
    (_hb : 1 ≤ batchSize) (_hc : 1 ≤ concurrency) (hs : SchedulePerm sched)
    (hdone : (crawlSubtree (worldFetcher world) sched rootId
        batchSize concurrency fuel).toExpand = []) :
    ∀ p ∈ (crawlSubtree (worldFetcher world) sched rootId
        batchSize concurrency fuel).nodeMap,
      ∀ c ∈ p.2.childIds, goodDoc world c = true →
        mapHasKey (crawlSubtree (worldFetcher world) sched rootId
          batchSize concurrency fuel).nodeMap c = true := by
  intro p hp c hc hgood
  have hP := (crawlRounds_preserve (worldFetcher world) sched batchSize concurrency hs fuel
    (initState rootId) (initState_InvP rootId) (initState_ChildrenTracked rootId)).1
  have hCT := (crawlRounds_preserve (worldFetcher world) sched batchSize concurrency hs fuel
    (initState rootId) (initState_InvP rootId) (initState_ChildrenTracked rootId)).2
  have hW := crawlRounds_InvW world rootId sched batchSize concurrency hs fuel
    (initState rootId) (initState_InvP rootId) (initState_InvW world rootId)
  have hdone' : (crawlRounds (worldFetcher world) sched batchSize concurrency fuel
      (initState rootId)).toExpand = [] := hdone
  rcases hCT p hp c hc with hq | hk
  · rcases hP.queued_covered c hq with h1 | h1 | h1
    · rw [hdone'] at h1
      simp at h1
    · simp at h1
    · exact hW.stored_good c h1 hgood
  · exact hk

/-- Concrete instantiation of `crawl_completeness_amended`. -/
theorem crawl_completeness_amended_witness :
    mapHasKey (crawlSubtree (worldFetcher worldW) schedId (jStr "r") 1 1 3).nodeMap
      (jStr "a") = true :=
  crawl_completeness_amended worldW schedId (jStr "r") 1 1 3
    (by decide) (by decide) (fun _ bs => List.Perm.refl bs) (by decide)
    (jStr "r", ⟨jStr "r", jUndef, jUndef, [jStr "a"], [("id", jStr "r")], []⟩) (by decide)
    (jStr "a") (by decide) (by decide)

/-! Claim C7: the end-to-end two-round scenario. -/

/-- World of the end-to-end scenario: the root `0:0` has child stubs `A`
(visible) and `B` (not explicitly invisible, so enqueued); the fetched
document of `B` is invisible and lists child `C`; `A` is a plain visible
leaf. -/
def world7 : JVal → JVal
  | jStr "0:0" => jObj [("document", jObj [("id", jStr "0:0"), ("name", jStr "Root"),
      ("type", jStr "FRAME"),
      ("children", jArr [jObj [("id", jStr "A")], jObj [("id", jStr "B")]])])]
  | jStr "A" => jObj [("document", jObj [("id", jStr "A"), ("name", jStr "Alpha"),
      ("type", jStr "TEXT")])]
  | jStr "B" => jObj [("document", jObj [("id", jStr "B"), ("visible", jBool false),
      ("type", jStr "FRAME"), ("children", jArr [jObj [("id", jStr "C")]])])]
  | _ => jUndef

theorem chunksUpTo_nil (batchSize : Nat) : ∀ k, chunksUpTo batchSize k [] = ([], []) := by
  intro k
  cases k with
  | zero => rfl
  | succ k =>
    rw [chunksUpTo]
    simp

theorem formBatches_small (batchSize concurrency : Nat) (q : List JVal)
    (h : q.length ≤ batchSize) :
    formBatches batchSize concurrency q = ([q], []) := by
  unfold formBatches
  rw [List.take_of_length_le h, List.drop_eq_nil_of_le h, chunksUpTo_nil]

theorem crawlRounds_empty (fetcher : Fetcher) (sched : Schedule)
    (batchSize concurrency : Nat) (k : Nat) (st : CrawlState)
    (h : st.toExpand = []) :
    crawlRounds fetcher sched batchSize concurrency k st = st := by
  cases k with
  | zero => rfl
  | succ k =>
    rw [crawlRounds]
    rw [if_pos (by simp [h])]

/-- State after the first dispatch round of the scenario. -/
def c7state1 : CrawlState :=
  processBatch (worldFetcher world7) ⟨[], [], [jStr "0:0"], []⟩ [jStr "0:0"]

/-- State after the second dispatch round of the scenario. -/
def c7state2 : CrawlState :=
  processBatch (worldFetcher world7)
    ⟨c7state1.nodeMap, [], c7state1.queued, c7state1.calls⟩ [jStr "A", jStr "B"]

/-- Claim C7: crawling `world7` from root `0:0` with `batchSize ≥ 2` (any
concurrency ≥ 1, any permutation schedule, at least two rounds of fuel)
stores exactly the root and `A` — `B` and `C` are absent — and dispatches
exactly two batches: the root's batch, then the batch `[A, B]`. -/
theorem crawl_endToEnd (sched : Schedule) (batchSize concurrency fuel : Nat)
    (hb : 2 ≤ batchSize) (_hc : 1 ≤ concurrency) (hs : SchedulePerm sched)
    (hf : 2 ≤ fuel) :
    ((crawlSubtree (worldFetcher world7) sched (jStr "0:0")
        batchSize concurrency fuel).nodeMap.map Prod.fst) = [jStr "0:0", jStr "A"]
    ∧ (crawlSubtree (worldFetcher world7) sched (jStr "0:0")
        batchSize concurrency fuel).calls = [[jStr "0:0"], [jStr "A", jStr "B"]] := by
  obtain ⟨k, rfl⟩ : ∃ k, fuel = k + 2 := ⟨fuel - 2, by omega⟩
  unfold crawlSubtree
  rw [show initState (jStr "0:0") = ⟨[], [jStr "0:0"], [jStr "0:0"], []⟩ from rfl]
  rw [crawlRounds]
  rw [if_neg (by decide :
      ¬ (⟨[], [jStr "0:0"], [jStr "0:0"], []⟩ : CrawlState).toExpand.isEmpty = true)]
  have hstep1 : crawlStep (worldFetcher world7) sched batchSize concurrency (k + 1)
      ⟨[], [jStr "0:0"], [jStr "0:0"], []⟩ = c7state1 := by
    unfold crawlStep
    rw [show (⟨[], [jStr "0:0"], [jStr "0:0"], []⟩ : CrawlState).toExpand
        = [jStr "0:0"] from rfl]
    rw [formBatches_small batchSize concurrency [jStr "0:0"] (by simp; omega)]
    have hss := hs (k + 1) [[jStr "0:0"]]
    rw [List.perm_singleton] at hss
    simp only [hss]
    rfl
  rw [hstep1]
  rw [crawlRounds]
  rw [if_neg (by decide : ¬ c7state1.toExpand.isEmpty = true)]
  have hstep2 : crawlStep (worldFetcher world7) sched batchSize concurrency k c7state1
      = c7state2 := by
    unfold crawlStep
    rw [show c7state1.toExpand = [jStr "A", jStr "B"] from by decide]
    rw [formBatches_small batchSize concurrency [jStr "A", jStr "B"] (by simp; omega)]
    have hss := hs k [[jStr "A", jStr "B"]]
    rw [List.perm_singleton] at hss
    simp only [hss]
    rfl
  rw [hstep2]
  rw [crawlRounds_empty _ _ _ _ k c7state2 (by decide)]
  exact ⟨by decide, by decide⟩

/-- Concrete instantiation of `crawl_endToEnd`. -/
theorem crawl_endToEnd_witness :
    ((crawlSubtree (worldFetcher world7) schedId (jStr "0:0") 2 1 2).nodeMap.map
        Prod.fst) = [jStr "0:0", jStr "A"] :=
  (crawl_endToEnd schedId 2 1 2 (by decide) (by decide)
    (fun _ bs => List.Perm.refl bs) (by decide)).1

end FigmaReport
